import Mathlib

/-!
Verification development for the DragonFF DFF exporter
(`src/ops/dff_exporter.py`).

The Python source is shallowly embedded below: every pure computation of
the exporter becomes a Lean function over rational numbers (floats are
modelled as exact rationals), Python exceptions (`KeyError`, `IndexError`)
become `Option`-failures, and the class-level mutable exporter state
becomes explicit state passing.  Host (Blender) objects appear only
through the attributes the exporter reads, which become fields of plain
structures.
-/

namespace DragonFF

/-- A 3-component vector (`mathutils.Vector` restricted to 3 entries). -/
structure Vec3 where
  x : ℚ
  y : ℚ
  z : ℚ
deriving DecidableEq, Repr

/-- The zero vector: `mathutils.Vector()` default constructor. -/
def Vec3.zero : Vec3 := ⟨0, 0, 0⟩

/-- Componentwise vector addition. -/
def Vec3.add (a b : Vec3) : Vec3 := ⟨a.x + b.x, a.y + b.y, a.z + b.z⟩

/-- Scalar multiplication of a vector. -/
def Vec3.smul (q : ℚ) (a : Vec3) : Vec3 := ⟨q * a.x, q * a.y, q * a.z⟩

/-- Sum of a list of vectors, as computed by Python `sum(vs, Vector())`
(left fold starting from the zero vector). -/
def vsum (l : List Vec3) : Vec3 := l.foldl Vec3.add Vec3.zero

/-- A 3x3 matrix given by its three rows. -/
structure Mat3 where
  r0 : Vec3
  r1 : Vec3
  r2 : Vec3
deriving DecidableEq, Repr

/-- Matrix transpose (`Matrix.transposed` of `mathutils`). -/
def Mat3.transposed (m : Mat3) : Mat3 :=
  ⟨⟨m.r0.x, m.r1.x, m.r2.x⟩, ⟨m.r0.y, m.r1.y, m.r2.y⟩, ⟨m.r0.z, m.r1.z, m.r2.z⟩⟩

/-- Matrix-vector product. -/
def Mat3.mulVec (m : Mat3) (v : Vec3) : Vec3 :=
  ⟨m.r0.x * v.x + m.r0.y * v.y + m.r0.z * v.z,
   m.r1.x * v.x + m.r1.y * v.y + m.r1.z * v.z,
   m.r2.x * v.x + m.r2.y * v.y + m.r2.z * v.z⟩

/-- A Blender 4x4 object matrix, decomposed into its linear (3x3) part and
its translation column: exactly the data `matrix.to_3x3()` and
`matrix.to_translation()` read off it. -/
structure Mat4 where
  lin : Mat3
  trans : Vec3
deriving DecidableEq, Repr

/-- `matrix.to_translation()`. -/
def Mat4.to_translation (m : Mat4) : Vec3 := m.trans

/-- `matrix.to_3x3()`. -/
def Mat4.to_3x3 (m : Mat4) : Mat3 := m.lin

/-- Applying a 4x4 matrix to a 3-vector (`matrix @ vector` in Blender):
the affine action, linear part plus translation. -/
def Mat4.apply (m : Mat4) (v : Vec3) : Vec3 := (m.lin.mulVec v).add m.trans

/-- The identity object matrix. -/
def Mat4.id : Mat4 := ⟨⟨⟨1,0,0⟩, ⟨0,1,0⟩, ⟨0,0,1⟩⟩, ⟨0,0,0⟩⟩

/-!
## Faces and triangle emission

`populate_geometry_from_faces_data` (dff_exporter.py lines 548-559) turns
each collected face record into a `dff.Triangle`.  After
`cleanup_duplicate_verts` has run, the entries of a face's `verts` list
are either ints or Python `None` (the value `find_vert_idx_by_tmp_idx`
returns when nothing matches), so the index type is `Option Nat`.
-/

/-- A collected face record: the dict `{"verts": ..., "mat_idx": ...}`
built in `populate_geometry_with_mesh_data`. -/
structure FaceData where
  verts : List (Option Nat)
  mat_idx : Nat
deriving DecidableEq, Repr

/-- `dff.Triangle`, built by `Triangle._make((b, a, material, c))`. -/
structure Triangle where
  b : Option Nat
  a : Option Nat
  material : Nat
  c : Option Nat
deriving DecidableEq, Repr

/-- One iteration of the loop in `populate_geometry_from_faces_data`:
reads `verts[1]`, `verts[0]`, `verts[2]` (raising `IndexError`, i.e.
`none`, when the face has fewer than three corners) and packs them as
`(b, a, material, c)`. -/
def tri_of_face (f : FaceData) : Option Triangle :=
  match f.verts with
  | v0 :: v1 :: v2 :: _ => some ⟨v1, v0, f.mat_idx, v2⟩
  | _ => none

/-- `dff_exporter.populate_geometry_from_faces_data`: appends one triangle
per face record to the geometry's triangle list (here returned as the list
of new triangles; the caller appends them). -/
def populate_geometry_from_faces_data (faces : List FaceData) : Option (List Triangle) :=
  faces.mapM tri_of_face

theorem populate_faces_cons (f : FaceData) (fs : List FaceData) :
    populate_geometry_from_faces_data (f :: fs) =
      (tri_of_face f).bind (fun t =>
        (populate_geometry_from_faces_data fs).map (fun ts => t :: ts)) := by
  simp only [populate_geometry_from_faces_data, List.mapM_cons]
  cases tri_of_face f <;> cases fs.mapM tri_of_face <;>
    simp [Option.bind, Option.map, bind, pure]

/-- C5: For every face in the deduplicated face list with remapped vertex
indices `(a, b, c)` and material index `m`, the emitted triangle record is
the quadruple `(b, a, m, c)`: the first two vertex indices are swapped
relative to the input winding. -/
theorem triangle_emission_swaps_first_two (faces : List FaceData)
    (h : ∀ f ∈ faces, 3 ≤ f.verts.length) :
    populate_geometry_from_faces_data faces =
      some (faces.map (fun f =>
        ⟨f.verts.getD 1 none, f.verts.getD 0 none, f.mat_idx, f.verts.getD 2 none⟩)) := by
  induction faces with
  | nil => rfl
  | cons f fs ih =>
    have hf : 3 ≤ f.verts.length := h f (List.mem_cons_self f fs)
    have hfs : ∀ g ∈ fs, 3 ≤ g.verts.length := fun g hg => h g (List.mem_cons_of_mem f hg)
    rw [populate_faces_cons, ih hfs]
    match f, hf with
    | ⟨v0 :: v1 :: v2 :: rest, m⟩, _ =>
      simp [tri_of_face, List.getD]

/-- Witness for C5 on a concrete face list. -/
theorem triangle_emission_swaps_first_two_witness :
    populate_geometry_from_faces_data [(⟨[some 0, some 1, some 2], 7⟩ : FaceData)] =
      some (([(⟨[some 0, some 1, some 2], 7⟩ : FaceData)]).map (fun f =>
        (⟨f.verts.getD 1 none, f.verts.getD 0 none, f.mat_idx, f.verts.getD 2 none⟩ : Triangle))) :=
  triangle_emission_swaps_first_two [(⟨[some 0, some 1, some 2], 7⟩ : FaceData)] (by decide)

/-!
## Collected corner records and vertex deduplication

`populate_geometry_with_mesh_data` collects one record per triangulated
face corner (dff_exporter.py lines 577-609); `cleanup_duplicate_verts`
(lines 455-488) then merges records agreeing on source vertex index,
normal and UV set, and remaps face indices through
`find_vert_idx_by_tmp_idx` (lines 447-451).
-/

/-- A per-corner UV coordinate (`uv_layer.data[loop_index].uv`). -/
structure UV where
  x : ℚ
  y : ℚ
deriving DecidableEq, Repr

/-- A per-corner vertex color (4 float components in [0,1]). -/
structure Color4 where
  r : ℚ
  g : ℚ
  b : ℚ
  a : ℚ
deriving DecidableEq, Repr

/-- The per-corner record dict built in `populate_geometry_with_mesh_data`:
`{"idx", "tmp_idx", "co", "normal", "uvs", "vert_cols", "bones"}`. -/
structure VertData where
  idx : Nat
  tmp_idx : Nat
  co : Vec3
  normal : Vec3
  uvs : List UV
  vert_cols : List Color4
  bones : List (Nat × ℚ)
deriving DecidableEq, Repr

/-- The comparison of lines 470-472: two corner records are duplicates
when their `idx`, `normal` and `uvs` entries are (value-)equal.  Python
compares `mathutils` vectors and lists of them by value. -/
def vmB (v w : VertData) : Bool :=
  v.idx == w.idx && v.normal == w.normal && v.uvs == w.uvs

/-- The deduplication key: `vmB v w = true` iff the two records agree on
this triple. -/
def dedupKey (v : VertData) : Nat × Vec3 × List UV := (v.idx, v.normal, v.uvs)

theorem vmB_iff_key (v w : VertData) : vmB v w = true ↔ dedupKey v = dedupKey w := by
  simp [vmB, dedupKey, Prod.ext_iff, and_assoc]

theorem vmB_refl (v : VertData) : vmB v v = true := by simp [vmB]

theorem vmB_symm {v w : VertData} (h : vmB v w = true) : vmB w v = true := by
  rw [vmB_iff_key] at h ⊢; exact h.symm

theorem vmB_trans {u v w : VertData} (h₁ : vmB u v = true) (h₂ : vmB v w = true) :
    vmB u w = true := by
  rw [vmB_iff_key] at h₁ h₂ ⊢; exact h₁.trans h₂

/-- The inner `while j < len(verts)` loop of `cleanup_duplicate_verts` for
a fixed outer record `v`: walks the remaining records, deleting every
duplicate of `v` while recording `removed_verts[dup.tmp_idx] =
v.tmp_idx`, and keeping the rest.  Returns the kept records and the new
`removed_verts` entries. -/
def removeDups (v : VertData) : List VertData → List VertData × List (Nat × Nat)
  | [] => ([], [])
  | w :: rest =>
    let p := removeDups v rest
    if vmB v w then (p.1, (w.tmp_idx, v.tmp_idx) :: p.2)
    else (w :: p.1, p.2)

theorem removeDups_kept_length (v : VertData) (l : List VertData) :
    (removeDups v l).1.length ≤ l.length := by
  induction l with
  | nil => simp [removeDups]
  | cons w rest ih =>
    simp only [removeDups]
    by_cases h : vmB v w <;> simp [h] <;> omega

/-- The outer `while i < len(verts)` loop of `cleanup_duplicate_verts`:
for each surviving record in turn, delete its later duplicates,
accumulating the `removed_verts` map (modelled as an association list;
its keys are distinct in every reachable state). -/
def dedupVerts : List VertData → List VertData × List (Nat × Nat)
  | [] => ([], [])
  | v :: rest =>
    let p := removeDups v rest
    let q := dedupVerts p.1
    (v :: q.1, p.2 ++ q.2)
termination_by l => l.length
decreasing_by
  simp only [List.length_cons]
  exact Nat.lt_succ_of_le (removeDups_kept_length _ _)

/-- The index-scanning loop shared by `find_vert_idx_by_tmp_idx`
(`for i, vert in enumerate(verts): if vert['tmp_idx'] == idx: return i`). -/
def findIdxAux (p : α → Bool) : List α → Nat → Option Nat
  | [], _ => none
  | a :: l, i => if p a then some i else findIdxAux p l (i + 1)

/-- `dff_exporter.find_vert_idx_by_tmp_idx`: position of the first record
whose `tmp_idx` equals `idx`; Python falls off the loop and returns
`None` when there is none. -/
def find_vert_idx_by_tmp_idx (verts : List VertData) (idx : Nat) : Option Nat :=
  findIdxAux (fun v => v.tmp_idx == idx) verts 0

/-- Lookup in the `removed_verts` dict (`vert_idx in removed_verts` /
`removed_verts[vert_idx]`). -/
def lookupRemoved (rem : List (Nat × Nat)) (k : Nat) : Option Nat :=
  (rem.find? (fun p => p.1 == k)).map (fun p => p.2)

/-- The face-index update of lines 482-488, for a single entry of a
face's `verts` list.  A `none` entry (Python `None`, possible after an
earlier pass) is not a key of `removed_verts` and matches no record's
`tmp_idx`, so it maps to `none` again. -/
def remapIdx (verts : List VertData) (rem : List (Nat × Nat)) : Option Nat → Option Nat
  | none => none
  | some i =>
    match lookupRemoved rem i with
    | some t => find_vert_idx_by_tmp_idx verts t
    | none => find_vert_idx_by_tmp_idx verts i

/-- `dff_exporter.cleanup_duplicate_verts`: deduplicate the collected
corner records and remap every face index (the Python function mutates
`verts` and `faces` in place; the result pair is returned here). -/
def cleanup_duplicate_verts (verts : List VertData) (faces : List FaceData) :
    List VertData × List FaceData :=
  let p := dedupVerts verts
  (p.1, faces.map (fun f => { f with verts := f.verts.map (remapIdx p.1 p.2) }))

theorem removeDups_spec (v : VertData) (l : List VertData) :
    removeDups v l =
      (l.filter (fun w => !vmB v w),
       (l.filter (fun w => vmB v w)).map (fun w => (w.tmp_idx, v.tmp_idx))) := by
  induction l with
  | nil => rfl
  | cons w rest ih =>
    simp only [removeDups, ih, List.filter_cons]
    by_cases h : vmB v w <;> simp [h]

theorem dedupVerts_cons (v : VertData) (rest : List VertData) :
    dedupVerts (v :: rest) =
      (v :: (dedupVerts ((removeDups v rest).1)).1,
       (removeDups v rest).2 ++ (dedupVerts ((removeDups v rest).1)).2) := by
  rw [dedupVerts]

theorem findIdxAux_shift (p : α → Bool) (l : List α) (i : Nat) :
    findIdxAux p l i = (findIdxAux p l 0).map (fun j => j + i) := by
  induction l generalizing i with
  | nil => rfl
  | cons a l ih =>
    simp only [findIdxAux]
    by_cases h : p a
    · simp [h]
    · simp only [h, if_false]
      rw [ih (i + 1), ih 1]
      cases findIdxAux p l 0 with
      | none => rfl
      | some j => simp; omega

theorem findIdxAux_cons (p : α → Bool) (a : α) (l : List α) :
    findIdxAux p (a :: l) 0 =
      if p a then some 0 else (findIdxAux p l 0).map (fun j => j + 1) := by
  simp only [findIdxAux]
  by_cases h : p a
  · simp [h]
  · simp only [h, if_false]
    exact findIdxAux_shift p l 1

theorem findIdxAux_some (p : α → Bool) (l : List α) (j : Nat)
    (h : findIdxAux p l 0 = some j) :
    ∃ hj : j < l.length, p (l.get ⟨j, hj⟩) = true := by
  induction l generalizing j with
  | nil => simp [findIdxAux] at h
  | cons a l ih =>
    rw [findIdxAux_cons] at h
    by_cases hp : p a
    · rw [if_pos hp] at h
      cases h
      exact ⟨Nat.succ_pos _, hp⟩
    · rw [if_neg hp, Option.map_eq_some'] at h
      obtain ⟨j', hj', rfl⟩ := h
      obtain ⟨hlt, hpget⟩ := ih j' hj'
      exact ⟨Nat.succ_lt_succ hlt, hpget⟩

theorem findIdxAux_isSome (p : α → Bool) (l : List α) (x : α) (hx : x ∈ l)
    (hp : p x = true) : ∃ j, findIdxAux p l 0 = some j := by
  induction l with
  | nil => cases hx
  | cons a l ih =>
    rw [findIdxAux_cons]
    by_cases hpa : p a
    · exact ⟨0, by simp [hpa]⟩
    · rcases List.mem_cons.mp hx with rfl | hx'
      · exact absurd hp hpa
      · obtain ⟨j, hj⟩ := ih hx'
        exact ⟨j + 1, by simp [hpa, hj]⟩

theorem findIdxAux_congr (p q : α → Bool) (l : List α) (i : Nat)
    (h : ∀ x ∈ l, p x = q x) : findIdxAux p l i = findIdxAux q l i := by
  induction l generalizing i with
  | nil => rfl
  | cons a l ih =>
    simp only [findIdxAux, h a (List.mem_cons_self a l)]
    by_cases hq : q a
    · simp [hq]
    · simp only [hq, if_false]
      exact ih (i + 1) (fun x hx => h x (List.mem_cons_of_mem a hx))

theorem lookupRemoved_append_some (ps qs : List (Nat × Nat)) (k a : Nat)
    (h : lookupRemoved ps k = some a) : lookupRemoved (ps ++ qs) k = some a := by
  induction ps with
  | nil => simp [lookupRemoved] at h
  | cons p ps ih =>
    simp only [lookupRemoved, List.cons_append, List.find?] at *
    by_cases hp : p.1 == k
    · simpa [hp] using h
    · simp only [hp] at *
      exact ih h

theorem lookupRemoved_append_none (ps qs : List (Nat × Nat)) (k : Nat)
    (h : lookupRemoved ps k = none) :
    lookupRemoved (ps ++ qs) k = lookupRemoved qs k := by
  induction ps with
  | nil => simp
  | cons p ps ih =>
    simp only [lookupRemoved, List.cons_append, List.find?] at *
    by_cases hp : p.1 == k
    · simp [hp] at h
    · simp only [hp] at *
      exact ih h

theorem lookupRemoved_eq_none (ps : List (Nat × Nat)) (k : Nat)
    (h : ∀ p ∈ ps, p.1 ≠ k) : lookupRemoved ps k = none := by
  induction ps with
  | nil => rfl
  | cons p ps ih =>
    have h1 : (p.1 == k) = false := by
      simpa using h p (List.mem_cons_self p ps)
    simp only [lookupRemoved, List.find?, h1]
    exact ih (fun q hq => h q (List.mem_cons_of_mem p hq))

theorem removeDups_kept_sublist (v : VertData) (l : List VertData) :
    (removeDups v l).1.Sublist l := by
  rw [removeDups_spec]
  exact List.filter_sublist l

theorem dedupVerts_sublist (vs : List VertData) : (dedupVerts vs).1.Sublist vs := by
  induction vs using dedupVerts.induct with
  | case1 => simp [dedupVerts]
  | case2 v rest p ih =>
    rw [dedupVerts_cons]
    exact List.Sublist.cons₂ v (ih.trans (removeDups_kept_sublist v rest))

theorem lookupRemoved_map_const_some (l : List VertData) (c k : Nat) (x : VertData)
    (hx : x ∈ l) (hk : x.tmp_idx = k) :
    lookupRemoved (l.map (fun w => (w.tmp_idx, c))) k = some c := by
  induction l with
  | nil => cases hx
  | cons a l ih =>
    simp only [List.map_cons, lookupRemoved, List.find?]
    by_cases h : a.tmp_idx == k
    · simp [h]
    · simp only [h]
      rcases List.mem_cons.mp hx with rfl | hx'
      · exact absurd (by simpa using hk) (by simpa using h)
      · exact ih hx'

theorem dedupVerts_repr_exists (vs : List VertData) :
    ∀ u ∈ vs, ∃ w ∈ (dedupVerts vs).1, vmB w u = true := by
  induction vs using dedupVerts.induct with
  | case1 => intro u hu; cases hu
  | case2 v rest p ih =>
    intro u hu
    rw [dedupVerts_cons]
    rcases List.mem_cons.mp hu with rfl | hu'
    · exact ⟨u, List.mem_cons_self _ _, vmB_refl u⟩
    · by_cases hm : vmB v u
      · exact ⟨v, List.mem_cons_self _ _, hm⟩
      · have hu2 : u ∈ (removeDups v rest).1 := by
          rw [removeDups_spec]
          exact List.mem_filter.mpr ⟨hu', by simp [hm]⟩
        obtain ⟨w, hw, hvm⟩ := ih u hu2
        exact ⟨w, List.mem_cons_of_mem v hw, hvm⟩

theorem dedupVerts_rem_values (vs : List VertData) :
    ∀ q ∈ (dedupVerts vs).2, ∃ w ∈ (dedupVerts vs).1, q.2 = w.tmp_idx := by
  induction vs using dedupVerts.induct with
  | case1 => intro q hq; simp [dedupVerts] at hq
  | case2 v rest p ih =>
    intro q hq
    rw [dedupVerts_cons] at hq ⊢
    rcases List.mem_append.mp hq with h1 | h2
    · rw [removeDups_spec] at h1
      simp only [List.mem_map, List.mem_filter] at h1
      obtain ⟨w, _, rfl⟩ := h1
      exact ⟨v, List.mem_cons_self _ _, rfl⟩
    · obtain ⟨w, hw, hq2⟩ := ih q h2
      exact ⟨w, List.mem_cons_of_mem v hw, hq2⟩

theorem dedupVerts_rem_keys (vs : List VertData) :
    ∀ q ∈ (dedupVerts vs).2, ∃ w ∈ vs, q.1 = w.tmp_idx := by
  induction vs using dedupVerts.induct with
  | case1 => intro q hq; simp [dedupVerts] at hq
  | case2 v rest p ih =>
    intro q hq
    rw [dedupVerts_cons] at hq
    rcases List.mem_append.mp hq with h1 | h2
    · rw [removeDups_spec] at h1
      simp only [List.mem_map, List.mem_filter] at h1
      obtain ⟨w, ⟨hwr, _⟩, rfl⟩ := h1
      exact ⟨w, List.mem_cons_of_mem v hwr, rfl⟩
    · obtain ⟨w, hw, hq1⟩ := ih q h2
      have hwr : w ∈ rest := (removeDups_kept_sublist v rest).subset hw
      exact ⟨w, List.mem_cons_of_mem v hwr, hq1⟩

/-- Corner remapping characterized: under distinct `tmp_idx` values (true
of the collection loop, which sets `tmp_idx = len(vertices_list)`), the
face-update of `cleanup_duplicate_verts` sends each corner's `tmp_idx` to
the position of the first surviving duplicate of that corner. -/
theorem dedup_remap_eq_findRepr (vs : List VertData) :
    vs.Pairwise (fun a b => a.tmp_idx ≠ b.tmp_idx) →
    ∀ u ∈ vs, remapIdx (dedupVerts vs).1 (dedupVerts vs).2 (some u.tmp_idx)
      = findIdxAux (fun w => vmB w u) (dedupVerts vs).1 0 := by
  induction vs using dedupVerts.induct with
  | case1 => intro _ u hu; cases hu
  | case2 v rest p ih =>
    intro hD u hu
    obtain ⟨hv, hrest⟩ := List.pairwise_cons.mp hD
    have hkeptsub : (removeDups v rest).1.Sublist rest := removeDups_kept_sublist v rest
    rw [dedupVerts_cons]
    rcases List.mem_cons.mp hu with rfl | hu'
    · -- the outer-loop record itself: never removed, found at position 0
      have e1 : lookupRemoved (removeDups u rest).2 u.tmp_idx = none := by
        apply lookupRemoved_eq_none
        intro q hq
        rw [removeDups_spec] at hq
        simp only [List.mem_map, List.mem_filter] at hq
        obtain ⟨w, ⟨hwr, _⟩, rfl⟩ := hq
        exact fun hh => (hv w hwr) hh.symm
      have e2 : lookupRemoved (dedupVerts (removeDups u rest).1).2 u.tmp_idx = none := by
        apply lookupRemoved_eq_none
        intro q hq
        obtain ⟨w, hw, hq1⟩ := dedupVerts_rem_keys _ q hq
        rw [hq1]
        exact fun hh => (hv w (hkeptsub.subset hw)) hh.symm
      simp only [remapIdx, lookupRemoved_append_none _ _ _ e1, e2]
      simp only [find_vert_idx_by_tmp_idx]
      rw [findIdxAux_cons, findIdxAux_cons]
      simp [vmB_refl]
    · by_cases hm : vmB v u
      · -- a removed duplicate of the head: mapped to the head's slot 0
        have e1 : lookupRemoved (removeDups v rest).2 u.tmp_idx = some v.tmp_idx := by
          rw [removeDups_spec]
          exact lookupRemoved_map_const_some _ _ _ u (List.mem_filter.mpr ⟨hu', hm⟩) rfl
        simp only [remapIdx, lookupRemoved_append_some _ _ _ _ e1]
        rw [find_vert_idx_by_tmp_idx, findIdxAux_cons, findIdxAux_cons]
        simp [hm]
      · -- kept past the head: handled by the recursive structure
        have hukept : u ∈ (removeDups v rest).1 := by
          rw [removeDups_spec]
          exact List.mem_filter.mpr ⟨hu', by simp [hm]⟩
        have hDk : (removeDups v rest).1.Pairwise (fun a b => a.tmp_idx ≠ b.tmp_idx) :=
          List.Pairwise.sublist hkeptsub hrest
        have IH := ih hDk u hukept
        have hvu : v.tmp_idx ≠ u.tmp_idx := hv u hu'
        have e1 : lookupRemoved (removeDups v rest).2 u.tmp_idx = none := by
          apply lookupRemoved_eq_none
          intro q hq
          rw [removeDups_spec] at hq
          simp only [List.mem_map, List.mem_filter] at hq
          obtain ⟨w, ⟨hwr, hwm⟩, rfl⟩ := hq
          intro hh
          have huw : u ≠ w := by
            intro hyy
            rw [hyy] at hm
            exact hm hwm
          exact (List.Pairwise.forall (fun a b hab => hab.symm) hrest hu' hwr huw) hh.symm
        simp only [remapIdx] at IH ⊢
        rw [lookupRemoved_append_none _ _ _ e1]
        cases hlook : lookupRemoved (dedupVerts (removeDups v rest).1).2 u.tmp_idx with
        | some t =>
          rw [hlook] at IH
          have hvt : v.tmp_idx ≠ t := by
            have hq : ∃ q, (dedupVerts (removeDups v rest).1).2.find?
                (fun p => p.1 == u.tmp_idx) = some q ∧ q.2 = t := by
              simpa [lookupRemoved, Option.map_eq_some'] using hlook
            obtain ⟨q, hqf, hqt⟩ := hq
            have hqmem : q ∈ (dedupVerts (removeDups v rest).1).2 :=
              List.mem_of_find?_eq_some hqf
            obtain ⟨w, hw, hq2⟩ := dedupVerts_rem_values _ q hqmem
            have hwrest : w ∈ rest :=
              hkeptsub.subset ((dedupVerts_sublist _).subset hw)
            rw [← hqt, hq2]
            exact hv w hwrest
          simp only [find_vert_idx_by_tmp_idx] at IH ⊢
          rw [findIdxAux_cons, findIdxAux_cons]
          have h1 : (v.tmp_idx == t) = false := by simpa using hvt
          simp only [h1, hm, if_false, Bool.false_eq_true]
          rw [IH]
        | none =>
          rw [hlook] at IH
          simp only [find_vert_idx_by_tmp_idx] at IH ⊢
          rw [findIdxAux_cons, findIdxAux_cons]
          have h1 : (v.tmp_idx == u.tmp_idx) = false := by simpa using hvu
          simp only [h1, hm, if_false, Bool.false_eq_true]
          rw [IH]

/-- C3: In vertex deduplication, two collected corners are merged into one
stored vertex if and only if they have the same source vertex index, the
same normal, and the same UV coordinate set; and after merging, every
triangle's vertex indices are remapped to positions of surviving vertices
in the deduplicated list.  The `tmp_idx` hypotheses hold of the collection
loop, which numbers corners consecutively and puts each corner's own
`tmp_idx` into the face records. -/
theorem cleanup_merges_iff_same_idx_normal_uvs (verts : List VertData) (faces : List FaceData)
    (hD : verts.Pairwise (fun a b => a.tmp_idx ≠ b.tmp_idx))
    (hf : ∀ f ∈ faces, ∀ o ∈ f.verts, ∃ v ∈ verts, o = some v.tmp_idx) :
    (∀ v ∈ verts, ∀ w ∈ verts,
      (remapIdx (dedupVerts verts).1 (dedupVerts verts).2 (some v.tmp_idx)
        = remapIdx (dedupVerts verts).1 (dedupVerts verts).2 (some w.tmp_idx))
      ↔ dedupKey v = dedupKey w)
    ∧ (∀ f ∈ (cleanup_duplicate_verts verts faces).2, ∀ o ∈ f.verts,
        ∃ j, o = some j ∧ j < (cleanup_duplicate_verts verts faces).1.length) := by
  constructor
  · intro v hv w hw
    rw [dedup_remap_eq_findRepr verts hD v hv, dedup_remap_eq_findRepr verts hD w hw]
    constructor
    · intro h
      obtain ⟨sv, hsv, hsvm⟩ := dedupVerts_repr_exists verts v hv
      obtain ⟨j, hj⟩ := findIdxAux_isSome (fun x => vmB x v) _ sv hsv hsvm
      obtain ⟨hjlt, hjp⟩ := findIdxAux_some _ _ _ hj
      have hj' : findIdxAux (fun x => vmB x w) (dedupVerts verts).1 0 = some j := by
        rw [← h]; exact hj
      obtain ⟨hjlt', hjp'⟩ := findIdxAux_some _ _ _ hj'
      have k1 := (vmB_iff_key _ _).mp hjp
      have k2 := (vmB_iff_key _ _).mp hjp'
      exact k1.symm.trans k2
    · intro h
      apply findIdxAux_congr
      intro x _
      rcases hb : vmB x v with hf1 | ht1
      · rcases hb2 : vmB x w with hf2 | ht2
        · rfl
        · exfalso
          have := ((vmB_iff_key x w).mp hb2).trans h.symm
          rw [← vmB_iff_key] at this
          simp [this] at hb
      · rcases hb2 : vmB x w with hf2 | ht2
        · exfalso
          have := ((vmB_iff_key x v).mp hb).trans h
          rw [← vmB_iff_key] at this
          simp [this] at hb2
        · rfl
  · intro f hfm o ho
    simp only [cleanup_duplicate_verts, List.mem_map] at hfm
    obtain ⟨f0, hf0, rfl⟩ := hfm
    simp only [List.mem_map] at ho
    obtain ⟨o0, ho0, rfl⟩ := ho
    obtain ⟨u, hu, rfl⟩ := hf f0 hf0 o0 ho0
    rw [dedup_remap_eq_findRepr verts hD u hu]
    obtain ⟨su, hsu, hsum⟩ := dedupVerts_repr_exists verts u hu
    obtain ⟨j, hj⟩ := findIdxAux_isSome (fun x => vmB x u) _ su hsu hsum
    obtain ⟨hjlt, _⟩ := findIdxAux_some _ _ _ hj
    exact ⟨j, hj, hjlt⟩

/-- Witness for C3 on a concrete corner list: corners 0 and 1 share the
dedup key, corner 2 differs. -/
theorem cleanup_merges_iff_same_idx_normal_uvs_witness :
    ([(⟨0, 0, ⟨0,0,0⟩, ⟨0,0,1⟩, [], [], []⟩ : VertData),
      ⟨0, 1, ⟨0,0,0⟩, ⟨0,0,1⟩, [], [], []⟩,
      ⟨1, 2, ⟨1,0,0⟩, ⟨0,0,1⟩, [], [], []⟩].Pairwise (fun a b => a.tmp_idx ≠ b.tmp_idx))
    ∧ ((∀ f ∈ [(⟨[some 0, some 1, some 2], 0⟩ : FaceData)], ∀ o ∈ f.verts,
        ∃ v ∈ [(⟨0, 0, ⟨0,0,0⟩, ⟨0,0,1⟩, [], [], []⟩ : VertData),
               ⟨0, 1, ⟨0,0,0⟩, ⟨0,0,1⟩, [], [], []⟩,
               ⟨1, 2, ⟨1,0,0⟩, ⟨0,0,1⟩, [], [], []⟩], o = some v.tmp_idx))
    ∧ ((∀ v ∈ [(⟨0, 0, ⟨0,0,0⟩, ⟨0,0,1⟩, [], [], []⟩ : VertData),
               ⟨0, 1, ⟨0,0,0⟩, ⟨0,0,1⟩, [], [], []⟩,
               ⟨1, 2, ⟨1,0,0⟩, ⟨0,0,1⟩, [], [], []⟩],
        ∀ w ∈ [(⟨0, 0, ⟨0,0,0⟩, ⟨0,0,1⟩, [], [], []⟩ : VertData),
               ⟨0, 1, ⟨0,0,0⟩, ⟨0,0,1⟩, [], [], []⟩,
               ⟨1, 2, ⟨1,0,0⟩, ⟨0,0,1⟩, [], [], []⟩],
      (remapIdx (dedupVerts [(⟨0, 0, ⟨0,0,0⟩, ⟨0,0,1⟩, [], [], []⟩ : VertData),
               ⟨0, 1, ⟨0,0,0⟩, ⟨0,0,1⟩, [], [], []⟩,
               ⟨1, 2, ⟨1,0,0⟩, ⟨0,0,1⟩, [], [], []⟩]).1
          (dedupVerts [(⟨0, 0, ⟨0,0,0⟩, ⟨0,0,1⟩, [], [], []⟩ : VertData),
               ⟨0, 1, ⟨0,0,0⟩, ⟨0,0,1⟩, [], [], []⟩,
               ⟨1, 2, ⟨1,0,0⟩, ⟨0,0,1⟩, [], [], []⟩]).2 (some v.tmp_idx)
        = remapIdx (dedupVerts [(⟨0, 0, ⟨0,0,0⟩, ⟨0,0,1⟩, [], [], []⟩ : VertData),
               ⟨0, 1, ⟨0,0,0⟩, ⟨0,0,1⟩, [], [], []⟩,
               ⟨1, 2, ⟨1,0,0⟩, ⟨0,0,1⟩, [], [], []⟩]).1
          (dedupVerts [(⟨0, 0, ⟨0,0,0⟩, ⟨0,0,1⟩, [], [], []⟩ : VertData),
               ⟨0, 1, ⟨0,0,0⟩, ⟨0,0,1⟩, [], [], []⟩,
               ⟨1, 2, ⟨1,0,0⟩, ⟨0,0,1⟩, [], [], []⟩]).2 (some w.tmp_idx))
      ↔ dedupKey v = dedupKey w)
    ∧ (∀ f ∈ (cleanup_duplicate_verts [(⟨0, 0, ⟨0,0,0⟩, ⟨0,0,1⟩, [], [], []⟩ : VertData),
               ⟨0, 1, ⟨0,0,0⟩, ⟨0,0,1⟩, [], [], []⟩,
               ⟨1, 2, ⟨1,0,0⟩, ⟨0,0,1⟩, [], [], []⟩]
              [(⟨[some 0, some 1, some 2], 0⟩ : FaceData)]).2, ∀ o ∈ f.verts,
        ∃ j, o = some j ∧ j < (cleanup_duplicate_verts [(⟨0, 0, ⟨0,0,0⟩, ⟨0,0,1⟩, [], [], []⟩ : VertData),
               ⟨0, 1, ⟨0,0,0⟩, ⟨0,0,1⟩, [], [], []⟩,
               ⟨1, 2, ⟨1,0,0⟩, ⟨0,0,1⟩, [], [], []⟩]
              [(⟨[some 0, some 1, some 2], 0⟩ : FaceData)]).1.length)) :=
  ⟨by decide, by decide,
   cleanup_merges_iff_same_idx_normal_uvs _ _ (by decide) (by decide)⟩

theorem dedupVerts_nil : dedupVerts [] = ([], []) := by
  rw [dedupVerts]

theorem dedupVerts_of_pairwise_not_match (vs : List VertData) :
    vs.Pairwise (fun a b => vmB a b = false) → dedupVerts vs = (vs, []) := by
  induction vs using dedupVerts.induct with
  | case1 => intro _; exact dedupVerts_nil
  | case2 v rest p ih =>
    intro h
    obtain ⟨hv, hrest⟩ := List.pairwise_cons.mp h
    have hrd : removeDups v rest = (rest, []) := by
      rw [removeDups_spec,
        List.filter_eq_self.mpr (fun w hw => by simp [hv w hw]),
        List.filter_eq_nil_iff.mpr (fun w hw => by simp [hv w hw])]
      rfl
    have h2 : dedupVerts (removeDups v rest).1 = ((removeDups v rest).1, []) := by
      apply ih
      show List.Pairwise (fun a b => vmB a b = false) (removeDups v rest).1
      rw [hrd]
      exact hrest
    rw [dedupVerts_cons, h2, hrd]
    simp

theorem find_vert_tmp_position (l : List VertData) (i j : Nat)
    (h : ∀ k (hk : k < l.length), (l.get ⟨k, hk⟩).tmp_idx = i + k)
    (hij : i ≤ j) (hj : j < i + l.length) :
    findIdxAux (fun v => v.tmp_idx == j) l i = some j := by
  induction l generalizing i with
  | nil => simp at hj; omega
  | cons a l ih =>
    have ha : a.tmp_idx = i := by simpa using h 0 (Nat.succ_pos _)
    simp only [findIdxAux]
    by_cases hji : j = i
    · subst hji
      simp [ha]
    · have hcond : ¬ ((a.tmp_idx == j) = true) := by
        simp only [beq_iff_eq, ha]
        omega
      rw [if_neg hcond]
      apply ih (i + 1)
      · intro k hk
        have := h (k + 1) (Nat.succ_lt_succ hk)
        simpa [Nat.add_assoc, Nat.add_comm 1 k] using this
      · omega
      · simp at hj; omega

/-- C9 (amended): re-running `cleanup_duplicate_verts` on a set it has
already been applied to leaves the vertex list unchanged, and leaves the
face list unchanged too provided the corners' `tmp_idx` values still
coincide with their list positions, which after a first pass holds
exactly when the first pass removed nothing. -/
theorem cleanup_idempotent_on_positionally_indexed (verts : List VertData) (faces : List FaceData)
    (h1 : verts.Pairwise (fun a b => vmB a b = false))
    (h2 : ∀ k (hk : k < verts.length), (verts.get ⟨k, hk⟩).tmp_idx = k)
    (h3 : ∀ f ∈ faces, ∀ o ∈ f.verts, ∃ j, o = some j ∧ j < verts.length) :
    cleanup_duplicate_verts verts faces = (verts, faces) := by
  have hd : dedupVerts verts = (verts, []) := dedupVerts_of_pairwise_not_match verts h1
  have hremap : ∀ f ∈ faces, ∀ o ∈ f.verts, remapIdx verts [] o = o := by
    intro f hf o ho
    obtain ⟨j, rfl, hjlt⟩ := h3 f hf o ho
    simp only [remapIdx, lookupRemoved, List.find?, Option.map_none']
    simp only [find_vert_idx_by_tmp_idx]
    exact find_vert_tmp_position verts 0 j (by simpa using h2) (Nat.zero_le j)
      (by simpa using hjlt)
  have hfaces : faces.map (fun f => { f with verts := f.verts.map (remapIdx verts []) })
      = faces := by
    calc faces.map (fun f => { f with verts := f.verts.map (remapIdx verts []) })
        = faces.map (fun f => f) := by
          apply List.map_congr_left
          intro f hf
          have hm : f.verts.map (remapIdx verts []) = f.verts.map id :=
            List.map_congr_left (fun o ho => hremap f hf o ho)
          rw [hm, List.map_id]
      _ = faces := List.map_id' faces
  simp only [cleanup_duplicate_verts, hd]
  rw [hfaces]

/-- Fuel-indexed form of the outer deduplication loop.  `dedupVerts` is
defined by well-founded recursion and so does not reduce inside the
kernel; this structurally recursive twin (agreeing whenever the fuel is
at least the list length, `dedupVerts_eq_fueled`) lets concrete runs be
checked by `decide`. -/
def dedupVertsFuel : Nat → List VertData → List VertData × List (Nat × Nat)
  | _, [] => ([], [])
  | 0, _ :: _ => ([], [])
  | n + 1, v :: rest =>
    let p := removeDups v rest
    let q := dedupVertsFuel n p.1
    (v :: q.1, p.2 ++ q.2)

theorem dedupVertsFuel_congr : ∀ (n : Nat) (vs : List VertData), vs.length ≤ n →
    dedupVertsFuel n vs = dedupVertsFuel vs.length vs := by
  intro n
  induction n using Nat.strong_induction_on with
  | _ n ih =>
    intro vs h
    match n, vs with
    | n, [] => cases n <;> rfl
    | 0, v :: rest => simp at h
    | n + 1, v :: rest =>
      simp only [dedupVertsFuel, List.length_cons]
      have hk := removeDups_kept_length v rest
      have h' : rest.length ≤ n := Nat.le_of_succ_le_succ h
      rw [ih n (Nat.lt_succ_self n) _ (le_trans hk h'),
          ih rest.length (Nat.lt_succ_of_le h') _ hk]

theorem dedupVerts_eq_fueled (vs : List VertData) :
    dedupVerts vs = dedupVertsFuel vs.length vs := by
  induction vs using dedupVerts.induct with
  | case1 => rw [dedupVerts_nil]; rfl
  | case2 v rest p ih =>
    have ih' : dedupVerts (removeDups v rest).1
        = dedupVertsFuel (removeDups v rest).1.length (removeDups v rest).1 := ih
    rw [dedupVerts_cons]
    show _ = dedupVertsFuel (rest.length + 1) (v :: rest)
    simp only [dedupVertsFuel]
    rw [dedupVertsFuel_congr rest.length (removeDups v rest).1 (removeDups_kept_length v rest),
      ← ih']

/-- Witness for the amended C9 on a concrete deduplicated list whose
`tmp_idx` values equal positions. -/
theorem cleanup_idempotent_on_positionally_indexed_witness :
    cleanup_duplicate_verts
        [(⟨0, 0, ⟨0,0,0⟩, ⟨0,0,1⟩, [], [], []⟩ : VertData),
         ⟨1, 1, ⟨1,0,0⟩, ⟨0,0,1⟩, [], [], []⟩]
        [(⟨[some 0, some 1, some 0], 3⟩ : FaceData)]
      = ([(⟨0, 0, ⟨0,0,0⟩, ⟨0,0,1⟩, [], [], []⟩ : VertData),
          ⟨1, 1, ⟨1,0,0⟩, ⟨0,0,1⟩, [], [], []⟩],
         [(⟨[some 0, some 1, some 0], 3⟩ : FaceData)]) :=
  cleanup_idempotent_on_positionally_indexed _ _ (by decide) (by decide) (by decide)

/-- C9 counterexample: after a first pass that merged corners 0 and 1,
the face indices are positions in the deduplicated list, but the
surviving records keep their original `tmp_idx` values (0 and 2), so a
second pass maps the face index 1 through `find_vert_idx_by_tmp_idx`,
finds nothing, and stores `None`: the face list changes. -/
theorem cleanup_duplicate_verts_not_idempotent :
    cleanup_duplicate_verts
        (cleanup_duplicate_verts
          [(⟨0, 0, ⟨0,0,0⟩, ⟨0,0,1⟩, [], [], []⟩ : VertData),
           ⟨0, 1, ⟨0,0,0⟩, ⟨0,0,1⟩, [], [], []⟩,
           ⟨1, 2, ⟨1,0,0⟩, ⟨0,0,1⟩, [], [], []⟩]
          [(⟨[some 0, some 1, some 2], 0⟩ : FaceData)]).1
        (cleanup_duplicate_verts
          [(⟨0, 0, ⟨0,0,0⟩, ⟨0,0,1⟩, [], [], []⟩ : VertData),
           ⟨0, 1, ⟨0,0,0⟩, ⟨0,0,1⟩, [], [], []⟩,
           ⟨1, 2, ⟨1,0,0⟩, ⟨0,0,1⟩, [], [], []⟩]
          [(⟨[some 0, some 1, some 2], 0⟩ : FaceData)]).2
      ≠ cleanup_duplicate_verts
          [(⟨0, 0, ⟨0,0,0⟩, ⟨0,0,1⟩, [], [], []⟩ : VertData),
           ⟨0, 1, ⟨0,0,0⟩, ⟨0,0,1⟩, [], [], []⟩,
           ⟨1, 2, ⟨1,0,0⟩, ⟨0,0,1⟩, [], [], []⟩]
          [(⟨[some 0, some 1, some 2], 0⟩ : FaceData)] := by
  simp only [cleanup_duplicate_verts, dedupVerts_eq_fueled]
  decide

/-!
## Geometry population from vertex records

`populate_geometry_from_vertices_data` (dff_exporter.py lines 492-545)
walks the deduplicated vertex records, filling the geometry's buffers,
the optional skin plugin rows and the optional night-color extension.
`get_skin_plg_and_bone_groups` (lines 379-411) builds the skin plugin
and the vertex-group-to-bone mapping from the armature modifier.
-/

/-- `dff.RGBA`: `int(255 * c)` per channel.  Python `int()` truncates
toward zero; color channels are non-negative, where truncation is the
floor. -/
structure RGBA where
  r : Int
  g : Int
  b : Int
  a : Int
deriving DecidableEq, Repr

/-- Channelwise `int(col * 255)` conversion of a vertex color. -/
def rgbaOfColor (c : Color4) : RGBA :=
  ⟨⌊c.r * 255⌋, ⌊c.g * 255⌋, ⌊c.b * 255⌋, ⌊c.a * 255⌋⟩

/-- `dff.TexCoords(u, v)`. -/
structure TexCoords where
  u : ℚ
  v : ℚ
deriving DecidableEq, Repr

/-- `dff.Sphere` (center followed by radius, as `Sphere._make` packs it). -/
structure Sphere where
  x : ℚ
  y : ℚ
  z : ℚ
  radius : ℚ
deriving DecidableEq, Repr

/-- A bone of `armature.data.bones`: its name and rest matrix. -/
structure ABone where
  name : String
  matrix_local : Mat4
deriving DecidableEq, Repr

/-- `dff.SkinPLG`.  Modelled from the spec: a fresh `SkinPLG()` starts
with empty matrix and per-vertex lists (the `gtaLib.dff` module is not
part of the exporter source). -/
structure SkinPLG where
  num_bones : Nat
  bone_matrices : List Mat4
  vertex_bone_indices : List (List Nat)
  vertex_bone_weights : List (List ℚ)
deriving DecidableEq, Repr

/-- `dff.Geometry`, restricted to the fields this exporter writes.  The
string-keyed `extensions` dict (keys `skin`, `extra_vert_color`) is a
closed set here and becomes optional fields.  Modelled from the spec: a
fresh `Geometry()` starts with empty buffers. -/
structure Geometry where
  vertices : List Vec3
  normals : List Vec3
  prelit_colors : List RGBA
  uv_layers : List (List TexCoords)
  triangles : List Triangle
  bounding_sphere : Option Sphere
  surface_properties : ℚ × ℚ × ℚ
  ext_skin : Option SkinPLG
  ext_extra_vert_color : Option (List RGBA)
deriving DecidableEq, Repr

/-- A fresh `dff.Geometry()`. -/
def Geometry.empty : Geometry := ⟨[], [], [], [], [], none, (0, 0, 0), none, none⟩

/-- The addon-defined per-object booleans `obj.dff.*` that the geometry
builder reads. -/
structure ObjDff where
  day_cols : Bool
  night_cols : Bool
  uv_map1 : Bool
  uv_map2 : Bool
deriving DecidableEq, Repr

/-- Line 501: `max_uv_layers = (obj.dff.uv_map2 + 1) * obj.dff.uv_map1`
(Python booleans coerce to 0/1). -/
def max_uv_layers (props : ObjDff) : Nat :=
  ((if props.uv_map2 then 1 else 0) + 1) * (if props.uv_map1 then 1 else 0)

/-- Lines 527-528: `while index >= len(geometry.uv_layers):
geometry.uv_layers.append([])` — pad to length at least `n`. -/
def growLayers (layers : List (List TexCoords)) (n : Nat) : List (List TexCoords) :=
  layers ++ List.replicate (n - layers.length) []

/-- Line 530: `geometry.uv_layers[index].append(...)` (the index is in
range after the `while` padding). -/
def appendAtLayer (layers : List (List TexCoords)) (i : Nat) (tc : TexCoords) :
    List (List TexCoords) :=
  layers.set i ((layers.getD i []) ++ [tc])

/-- Lines 523-530: the per-vertex uv loop, `break`-ing once the layer
index reaches `max_uv_layers`, and storing `TexCoords(uv.x, 1 - uv.y)`. -/
def addUVLoop (maxUV : Nat) : Nat → List (List TexCoords) → List UV → List (List TexCoords)
  | _, layers, [] => layers
  | index, layers, uv :: rest =>
    if maxUV ≤ index then layers
    else addUVLoop maxUV (index + 1)
      (appendAtLayer (growLayers layers (index + 1)) index ⟨uv.x, 1 - uv.y⟩) rest

/-- Strict list update: Python `lst[i] = a` raises `IndexError` out of
range. -/
def setStrict (l : List α) (i : Nat) (a : α) : Option (List α) :=
  if i < l.length then some (l.set i a) else none

/-- Lines 538-540: write the vertex's `(bone index, weight)` pairs into
the freshly appended zero rows, position by position. -/
def writeBones : Nat → List Nat → List ℚ → List (Nat × ℚ) → Option (List Nat × List ℚ)
  | _, bi, bw, [] => some (bi, bw)
  | i, bi, bw, b :: rest =>
    match setStrict bi i b.1 with
    | none => none
    | some bi' =>
      match setStrict bw i b.2 with
      | none => none
      | some bw' => writeBones (i + 1) bi' bw' rest

/-- The body of `for vertex in vertices_list` (lines 508-540), one
record at a time, threading the geometry, the optional skin plugin and
the accumulated night colors. -/
def pvLoop (hp hn : Bool) (maxUV : Nat) :
    Geometry → Option SkinPLG → List RGBA → List VertData →
    Option (Geometry × Option SkinPLG × List RGBA)
  | g, sk, ev, [] => some (g, sk, ev)
  | g, sk, ev, v :: rest =>
    let g1 := { g with vertices := g.vertices ++ [v.co], normals := g.normals ++ [v.normal] }
    match (if hp then
        match v.vert_cols.get? 0 with
        | some c => some { g1 with prelit_colors := g1.prelit_colors ++ [rgbaOfColor c] }
        | none => none
      else some g1) with
    | none => none
    | some g2 =>
      match (if hn then
          match v.vert_cols.get? 1 with
          | some c => some (ev ++ [rgbaOfColor c])
          | none => none
        else some ev) with
      | none => none
      | some ev3 =>
        let g4 := { g2 with uv_layers := addUVLoop maxUV 0 g2.uv_layers v.uvs }
        match (match sk with
          | none => some none
          | some s =>
            match writeBones 0 [0, 0, 0, 0] [0, 0, 0, 0] v.bones with
            | some bwp => some (some { s with
                vertex_bone_indices := s.vertex_bone_indices ++ [bwp.1]
                vertex_bone_weights := s.vertex_bone_weights ++ [bwp.2] })
            | none => none) with
        | none => none
        | some sk5 => pvLoop hp hn maxUV g4 sk5 ev3 rest

/-- `dff_exporter.populate_geometry_from_vertices_data` (lines 492-545).
`nvc` stands for `len(mesh.vertex_colors)`. -/
def populate_geometry_from_vertices_data (vertices_list : List VertData)
    (skin_plg : Option SkinPLG) (nvc : Nat) (props : ObjDff)
    (geometry : Geometry) : Option Geometry :=
  let hp := decide (0 < nvc) && props.day_cols
  let hn := decide (1 < nvc) && props.night_cols
  match pvLoop hp hn (max_uv_layers props) geometry skin_plg [] vertices_list with
  | none => none
  | some (g, sk, ev) =>
    let g2 := match sk with
      | some s => { g with ext_skin := some s }
      | none => g
    some (if hn then { g2 with ext_extra_vert_color := some ev } else g2)

/-- `obj.vertex_groups[name].index` lookup, `KeyError` as `none`. -/
def lookupVGroup (vgroups : List (String × Nat)) (nm : String) : Option Nat :=
  (vgroups.find? (fun p => p.1 == nm)).map (fun p => p.2)

/-- `bone_groups` lookup (`group.group in bone_groups`). -/
def lookupGroupIdx (bg : List (Nat × Nat)) (k : Nat) : Option Nat :=
  (bg.find? (fun p => p.1 == k)).map (fun p => p.2)

/-- `dff_exporter.get_skin_plg_and_bone_groups` (lines 379-411).  The
armature argument is the ordered bone list of the `ARMATURE` modifier's
object (or `none` when no such modifier exists); `invTrans` stands for
`bone.matrix_local.inverted().transposed()`, kept as a function
parameter because no claim depends on the matrix algebra itself.  The
`bone_groups` dict is modelled by prepending assignments and first-match
lookup. -/
def get_skin_plg_and_bone_groups (invTrans : Mat4 → Mat4)
    (vgroups : List (String × Nat)) (armature : Option (List ABone)) :
    Option SkinPLG × List (Nat × Nat) :=
  match armature with
  | none => (none, [])
  | some bones =>
    let skin : SkinPLG :=
      { num_bones := bones.length
        bone_matrices := bones.map (fun b => invTrans b.matrix_local)
        vertex_bone_indices := []
        vertex_bone_weights := [] }
    let bone_groups := bones.enum.foldl (fun acc p =>
        match lookupVGroup vgroups p.2.name with
        | some gidx => (gidx, p.1) :: acc
        | none => acc) []
    (some skin, bone_groups)

/-- The bone-collection loop of `populate_geometry_with_mesh_data`
(lines 595-601): walk the vertex's group entries `(group, weight)`,
keeping at most 4 entries whose group is a key of `bone_groups` with
positive weight. -/
def collect_bones (bone_groups : List (Nat × Nat)) :
    List (Nat × ℚ) → List (Nat × ℚ) → List (Nat × ℚ)
  | [], acc => acc
  | gr :: rest, acc =>
    if 4 ≤ acc.length then acc
    else
      match lookupGroupIdx bone_groups gr.1 with
      | some bidx =>
        if 0 < gr.2 then collect_bones bone_groups rest (acc ++ [(bidx, gr.2)])
        else collect_bones bone_groups rest acc
      | none => collect_bones bone_groups rest acc

theorem collect_bones_length_le (bone_groups : List (Nat × Nat))
    (gs : List (Nat × ℚ)) : ∀ acc : List (Nat × ℚ), acc.length ≤ 4 →
    (collect_bones bone_groups gs acc).length ≤ 4 := by
  induction gs with
  | nil => intro acc h; exact h
  | cons gr rest ih =>
    intro acc h
    simp only [collect_bones]
    by_cases hb : 4 ≤ acc.length
    · simp only [hb, if_true]
      exact h
    · simp only [hb, if_false]
      cases lookupGroupIdx bone_groups gr.1 with
      | none => exact ih acc h
      | some bidx =>
        by_cases hw : 0 < gr.2
        · simp only [hw, if_true]
          apply ih
          simp only [List.length_append, List.length_cons, List.length_nil]
          omega
        · simp only [hw, if_false]
          exact ih acc h

theorem pvLoop_cons_inv (hp hn : Bool) (maxUV : Nat) (g : Geometry) (sk : Option SkinPLG)
    (ev : List RGBA) (v : VertData) (rest : List VertData)
    (out : Geometry × Option SkinPLG × List RGBA)
    (h : pvLoop hp hn maxUV g sk ev (v :: rest) = some out) :
    ∃ (g2 : Geometry) (ev3 : List RGBA) (sk5 : Option SkinPLG),
      pvLoop hp hn maxUV { g2 with uv_layers := addUVLoop maxUV 0 g2.uv_layers v.uvs }
        sk5 ev3 rest = some out ∧
      g2.uv_layers = g.uv_layers ∧
      ((sk = none ∧ sk5 = none) ∨
       (∃ s bi bw, sk = some s ∧
          writeBones 0 [0, 0, 0, 0] [0, 0, 0, 0] v.bones = some (bi, bw) ∧
          sk5 = some { s with
            vertex_bone_indices := s.vertex_bone_indices ++ [bi]
            vertex_bone_weights := s.vertex_bone_weights ++ [bw] })) := by
  simp only [pvLoop] at h
  split at h
  · exact absurd h (by simp)
  next g2 hg2 =>
    split at h
    · exact absurd h (by simp)
    next ev3 hev3 =>
      split at h
      · exact absurd h (by simp)
      next sk5 hsk5 =>
        refine ⟨g2, ev3, sk5, h, ?_, ?_⟩
        · -- the prelit step does not touch uv layers
          split at hg2
          · split at hg2
            next c hc =>
              cases hg2
              rfl
            next hc => exact absurd hg2 (by simp)
          · cases hg2
            rfl
        · -- shape of the skin update
          split at hsk5
          · cases hsk5
            exact Or.inl ⟨rfl, rfl⟩
          next s =>
            split at hsk5
            next bwp hbw =>
              cases hsk5
              exact Or.inr ⟨s, bwp.1, bwp.2, rfl, by simpa using hbw, rfl⟩
            next hbw => exact absurd hsk5 (by simp)

theorem addUVLoop_length_le (maxUV : Nat) (uvs : List UV) :
    ∀ (i : Nat) (layers : List (List TexCoords)), layers.length ≤ maxUV →
      (addUVLoop maxUV i layers uvs).length ≤ maxUV := by
  induction uvs with
  | nil =>
    intro i layers h
    simpa [addUVLoop] using h
  | cons uv rest ih =>
    intro i layers h
    simp only [addUVLoop]
    by_cases hc : maxUV ≤ i
    · simpa [hc] using h
    · simp only [hc, if_false]
      apply ih
      simp only [appendAtLayer, growLayers, List.length_set, List.length_append,
        List.length_replicate]
      omega

theorem pvLoop_uv_layers_le (hp hn : Bool) (maxUV : Nat) :
    ∀ (verts : List VertData) (g : Geometry) (sk : Option SkinPLG) (ev : List RGBA)
      (out : Geometry × Option SkinPLG × List RGBA),
      pvLoop hp hn maxUV g sk ev verts = some out →
      g.uv_layers.length ≤ maxUV →
      out.1.uv_layers.length ≤ maxUV := by
  intro verts
  induction verts with
  | nil =>
    intro g sk ev out h hg
    simp only [pvLoop] at h
    cases h
    exact hg
  | cons v rest ih =>
    intro g sk ev out h hg
    obtain ⟨g2, ev3, sk5, hrec, huv, _⟩ := pvLoop_cons_inv hp hn maxUV g sk ev v rest out h
    apply ih _ _ _ _ hrec
    show (addUVLoop maxUV 0 g2.uv_layers v.uvs).length ≤ maxUV
    exact addUVLoop_length_le maxUV v.uvs 0 g2.uv_layers (huv ▸ hg)

/-- C8: For every exported geometry, the number of emitted UV-coordinate
layers never exceeds the maximum derived from the object's
`uv_map1`/`uv_map2` flags, which is 0 when `uv_map1` is unset, 1 when
only `uv_map1` is set, and 2 when both are set. -/
theorem uv_layer_count_bounded (verts : List VertData) (sk : Option SkinPLG)
    (nvc : Nat) (props : ObjDff) (g g' : Geometry)
    (hg : g.uv_layers = [])
    (h : populate_geometry_from_vertices_data verts sk nvc props g = some g') :
    g'.uv_layers.length ≤ max_uv_layers props ∧
    (props.uv_map1 = false → max_uv_layers props = 0) ∧
    (props.uv_map1 = true → props.uv_map2 = false → max_uv_layers props = 1) ∧
    (props.uv_map1 = true → props.uv_map2 = true → max_uv_layers props = 2) := by
  refine ⟨?_, ?_, ?_, ?_⟩
  · simp only [populate_geometry_from_vertices_data] at h
    split at h
    · exact absurd h (by simp)
    next g0 sk0 ev0 hpv =>
      have hbound := pvLoop_uv_layers_le _ _ (max_uv_layers props) verts g sk []
        (g0, sk0, ev0) hpv (by simp [hg])
      cases h
      split
      next s hs =>
        split
        · exact hbound
        · exact hbound
      next hs =>
        split
        · exact hbound
        · exact hbound
  · intro h1; simp [max_uv_layers, h1]
  · intro h1 h2; simp [max_uv_layers, h1, h2]
  · intro h1 h2; simp [max_uv_layers, h1, h2]

theorem getD_set_ne (l : List α) (i j : Nat) (a d : α) (h : i ≠ j) :
    (l.set i a).getD j d = l.getD j d := by
  induction l generalizing i j with
  | nil => simp
  | cons x xs ih =>
    cases i with
    | zero =>
      cases j with
      | zero => exact absurd rfl h
      | succ j => simp [List.getD]
    | succ i =>
      cases j with
      | zero => simp [List.getD]
      | succ j =>
        simp only [List.set, List.getD_cons_succ]
        exact ih i j (fun hh => h (by rw [hh]))

theorem getD_four_zeros_nat (j : Nat) : ([0, 0, 0, 0] : List Nat).getD j 0 = 0 := by
  rcases j with _ | _ | _ | _ | j <;> rfl

theorem getD_four_zeros_rat (j : Nat) : ([0, 0, 0, 0] : List ℚ).getD j 0 = 0 := by
  rcases j with _ | _ | _ | _ | j <;> rfl

theorem writeBones_spec (bs : List (Nat × ℚ)) :
    ∀ (i : Nat) (bi : List Nat) (bw : List ℚ),
      bi.length = 4 → bw.length = 4 → i + bs.length ≤ 4 →
      ∃ bi' bw', writeBones i bi bw bs = some (bi', bw') ∧
        bi'.length = 4 ∧ bw'.length = 4 ∧
        ∀ j, i + bs.length ≤ j → bi'.getD j 0 = bi.getD j 0 ∧ bw'.getD j 0 = bw.getD j 0 := by
  induction bs with
  | nil =>
    intro i bi bw h1 h2 _
    exact ⟨bi, bw, rfl, h1, h2, fun j _ => ⟨rfl, rfl⟩⟩
  | cons b rest ih =>
    intro i bi bw h1 h2 h3
    have hi4 : i < 4 := by
      simp only [List.length_cons] at h3
      omega
    simp only [writeBones, setStrict]
    rw [if_pos (by omega : i < bi.length), if_pos (by omega : i < bw.length)]
    have hlen3 : i + 1 + rest.length ≤ 4 := by
      simp only [List.length_cons] at h3
      omega
    obtain ⟨bi', bw', hw, l1, l2, hpres⟩ := ih (i + 1) (bi.set i b.1) (bw.set i b.2)
        (by simp [h1]) (by simp [h2]) hlen3
    refine ⟨bi', bw', hw, l1, l2, ?_⟩
    intro j hj
    have hj' : i + 1 + rest.length ≤ j := by
      simp only [List.length_cons] at hj
      omega
    have hij : i ≠ j := by
      simp only [List.length_cons] at hj
      omega
    obtain ⟨p1, p2⟩ := hpres j hj'
    exact ⟨by rw [p1, getD_set_ne _ _ _ _ _ hij], by rw [p2, getD_set_ne _ _ _ _ _ hij]⟩

/-- Shape of a per-vertex bone-index row: 4 slots, zero past the
vertex's influence count. -/
def rowOk (v : VertData) (r : List Nat) : Prop :=
  r.length = 4 ∧ ∀ j, v.bones.length ≤ j → r.getD j 0 = 0

/-- Shape of a per-vertex bone-weight row: 4 slots, zero past the
vertex's influence count. -/
def rowOkW (v : VertData) (r : List ℚ) : Prop :=
  r.length = 4 ∧ ∀ j, v.bones.length ≤ j → r.getD j 0 = 0

theorem pvLoop_skin_rows (hp hn : Bool) (maxUV : Nat) :
    ∀ (verts : List VertData) (g : Geometry) (s : SkinPLG) (ev : List RGBA)
      (out : Geometry × Option SkinPLG × List RGBA),
      pvLoop hp hn maxUV g (some s) ev verts = some out →
      (∀ v ∈ verts, v.bones.length ≤ 4) →
      ∃ (s' : SkinPLG) (rowsI : List (List Nat)) (rowsW : List (List ℚ)),
        out.2.1 = some s' ∧ s'.num_bones = s.num_bones ∧
        s'.bone_matrices = s.bone_matrices ∧
        s'.vertex_bone_indices = s.vertex_bone_indices ++ rowsI ∧
        s'.vertex_bone_weights = s.vertex_bone_weights ++ rowsW ∧
        List.Forall₂ rowOk verts rowsI ∧ List.Forall₂ rowOkW verts rowsW := by
  intro verts
  induction verts with
  | nil =>
    intro g s ev out h _
    simp only [pvLoop] at h
    cases h
    exact ⟨s, [], [], rfl, rfl, rfl, by simp, by simp, List.Forall₂.nil, List.Forall₂.nil⟩
  | cons v rest ih =>
    intro g s ev out h hb
    obtain ⟨g2, ev3, sk5, hrec, _, hskin⟩ := pvLoop_cons_inv hp hn maxUV g (some s) ev v rest out h
    rcases hskin with ⟨hne, _⟩ | ⟨s0, bi, bw, hseq, hwb, hsk5⟩
    · exact absurd hne (by simp)
    · have hs0 : s0 = s := by
        injection hseq with hh
        exact hh.symm
      subst hs0
      subst hsk5
      obtain ⟨s', rowsI, rowsW, ho, hnum, hmat, hvi, hvw, hfi, hfw⟩ :=
        ih _ _ _ _ hrec (fun u hu => hb u (List.mem_cons_of_mem _ hu))
      obtain ⟨bi', bw', hw', l1, l2, hpres⟩ := writeBones_spec v.bones 0 [0, 0, 0, 0]
        [0, 0, 0, 0] rfl rfl (by simpa using hb v (List.mem_cons_self _ _))
      rw [hw'] at hwb
      injection hwb with hwb'
      rw [Prod.mk.injEq] at hwb'
      obtain ⟨hbi, hbw⟩ := hwb'
      subst hbi
      subst hbw
      refine ⟨s', bi' :: rowsI, bw' :: rowsW, ho, hnum, hmat, ?_, ?_, ?_, ?_⟩
      · rw [hvi]
        simp
      · rw [hvw]
        simp
      · refine List.Forall₂.cons ⟨l1, ?_⟩ hfi
        intro j hj
        obtain ⟨p1, _⟩ := hpres j (by omega)
        rw [p1]
        exact getD_four_zeros_nat j
      · refine List.Forall₂.cons ⟨l2, ?_⟩ hfw
        intro j hj
        obtain ⟨_, p2⟩ := hpres j (by omega)
        rw [p2]
        exact getD_four_zeros_rat j

/-- C6: For every geometry built from a mesh with an armature modifier,
the skin binding's bone-matrix list has length equal to the armature's
bone count, and every vertex's bone-index and bone-weight arrays have
exactly 4 entries, zero-padded in the trailing positions when the vertex
has fewer than 4 influences.  The hypothesis that each record's `bones`
list comes from the collection loop (`collect_bones`) supplies the
at-most-4-influences bound that the loop's `break` enforces. -/
theorem skin_binding_bone_counts_and_padding
    (invTrans : Mat4 → Mat4) (vgroups : List (String × Nat)) (bones : List ABone)
    (verts : List VertData) (nvc : Nat) (props : ObjDff) (g g' : Geometry) (sk' : SkinPLG)
    (hcollect : ∀ v ∈ verts, ∃ bg gs, v.bones = collect_bones bg gs [])
    (hpop : populate_geometry_from_vertices_data verts
      (get_skin_plg_and_bone_groups invTrans vgroups (some bones)).1 nvc props g = some g')
    (hsk : g'.ext_skin = some sk') :
    sk'.num_bones = bones.length ∧
    sk'.bone_matrices.length = bones.length ∧
    sk'.vertex_bone_indices.length = verts.length ∧
    sk'.vertex_bone_weights.length = verts.length ∧
    List.Forall₂ rowOk verts sk'.vertex_bone_indices ∧
    List.Forall₂ rowOkW verts sk'.vertex_bone_weights := by
  have hb4 : ∀ v ∈ verts, v.bones.length ≤ 4 := by
    intro v hv
    obtain ⟨bg, gs, he⟩ := hcollect v hv
    rw [he]
    exact collect_bones_length_le bg gs [] (by simp)
  simp only [get_skin_plg_and_bone_groups] at hpop
  simp only [populate_geometry_from_vertices_data] at hpop
  split at hpop
  · exact absurd hpop (by simp)
  next g0 sk0 ev0 hpv =>
    obtain ⟨s', rowsI, rowsW, ho, hnum, hmat, hvi, hvw, hfi, hfw⟩ :=
      pvLoop_skin_rows _ _ _ verts g _ [] (g0, sk0, ev0) hpv hb4
    simp only at ho hnum hmat hvi hvw
    subst ho
    injection hpop with hpop'
    subst hpop'
    have hsk2 : sk' = s' := by
      split at hsk
      · simp only at hsk
        injection hsk with hh
        exact hh.symm
      · simp only at hsk
        injection hsk with hh
        exact hh.symm
    subst hsk2
    refine ⟨hnum, ?_, ?_, ?_, ?_, ?_⟩
    · rw [hmat, List.length_map]
    · rw [hvi, List.nil_append]
      exact (List.Forall₂.length_eq hfi).symm
    · rw [hvw, List.nil_append]
      exact (List.Forall₂.length_eq hfw).symm
    · rw [hvi, List.nil_append]
      exact hfi
    · rw [hvw, List.nil_append]
      exact hfw

/-- Witness for C8 on a one-vertex mesh with one UV layer enabled. -/
theorem uv_layer_count_bounded_witness :
    (Geometry.empty.uv_layers = ([] : List (List TexCoords))) ∧
    (⟨[⟨0,0,0⟩], [⟨0,0,1⟩], [], [[⟨0,1⟩]], [], none, (0,0,0), none, none⟩ : Geometry).uv_layers.length
      ≤ max_uv_layers ⟨false, false, true, false⟩ :=
  ⟨rfl,
   (uv_layer_count_bounded [⟨0, 0, ⟨0,0,0⟩, ⟨0,0,1⟩, [⟨0,0⟩], [], []⟩] none 0
      ⟨false, false, true, false⟩ Geometry.empty
      ⟨[⟨0,0,0⟩], [⟨0,0,1⟩], [], [[⟨0,1⟩]], [], none, (0,0,0), none, none⟩
      rfl (by
        simp only [populate_geometry_from_vertices_data, pvLoop, addUVLoop, growLayers,
          appendAtLayer, Geometry.empty, max_uv_layers]
        norm_num)).1⟩

/-- Witness for C6 on a two-bone armature and a two-vertex mesh, one
vertex with a single influence and one with none. -/
theorem skin_binding_bone_counts_and_padding_witness :
    (⟨2, [Mat4.id, Mat4.id], [[1,0,0,0], [0,0,0,0]],
        [[1,0,0,0], [0,0,0,0]]⟩ : SkinPLG).num_bones = 2 ∧
    (⟨2, [Mat4.id, Mat4.id], [[1,0,0,0], [0,0,0,0]],
        [[1,0,0,0], [0,0,0,0]]⟩ : SkinPLG).bone_matrices.length = 2 := by
  have H := skin_binding_bone_counts_and_padding (fun m => m) [("B", 5)]
    [⟨"A", Mat4.id⟩, ⟨"B", Mat4.id⟩]
    [⟨0, 0, ⟨0,0,0⟩, ⟨0,0,1⟩, [], [], [(1, 1)]⟩, ⟨1, 1, ⟨1,0,0⟩, ⟨0,0,1⟩, [], [], []⟩]
    0 ⟨false, false, false, false⟩ Geometry.empty
    ⟨[⟨0,0,0⟩, ⟨1,0,0⟩], [⟨0,0,1⟩, ⟨0,0,1⟩], [], [], [], none, (0,0,0),
      some ⟨2, [Mat4.id, Mat4.id], [[1,0,0,0], [0,0,0,0]], [[1,0,0,0], [0,0,0,0]]⟩, none⟩
    ⟨2, [Mat4.id, Mat4.id], [[1,0,0,0], [0,0,0,0]], [[1,0,0,0], [0,0,0,0]]⟩
    (by
      intro v hv
      rcases List.mem_cons.mp hv with rfl | hv2
      · exact ⟨[(5, 1)], [(5, 1)], by decide⟩
      · rcases List.mem_cons.mp hv2 with rfl | hv3
        · exact ⟨[], [], rfl⟩
        · cases hv3)
    (by decide) (by decide)
  exact ⟨H.1, H.2.1⟩

/-!
## Bounding sphere (populate_atomic, lines 681-691)
-/

/-- `max(*obj.dimensions)`: the largest of the three world-space
dimensions. -/
def maxDim (d : Vec3) : ℚ := max d.x (max d.y d.z)

/-- Lines 682-686: `0.125 * sum(Vector(b) for b in obj.bound_box)`
transformed by `obj.matrix_world`. -/
def bounding_sphere_center (matrix_world : Mat4) (bound_box : List Vec3) : Vec3 :=
  matrix_world.apply (Vec3.smul (1/8) (vsum bound_box))

/-- Line 687: `1.732 * max(*obj.dimensions) / 2`.  The source's float
literal is the decimal `1.732`, not the square root of 3. -/
def bounding_sphere_radius (dimensions : Vec3) : ℚ :=
  1732/1000 * maxDim dimensions / 2

theorem vadd_comm (a b : Vec3) : a.add b = b.add a := by
  simp only [Vec3.add, Vec3.mk.injEq]
  exact ⟨by ring, by ring, by ring⟩

theorem vadd_assoc (a b c : Vec3) : (a.add b).add c = a.add (b.add c) := by
  simp only [Vec3.add, Vec3.mk.injEq]
  exact ⟨by ring, by ring, by ring⟩

theorem vadd_zero (a : Vec3) : a.add Vec3.zero = a := by
  cases a
  simp only [Vec3.add, Vec3.zero, Vec3.mk.injEq]
  exact ⟨by ring, by ring, by ring⟩

theorem zero_vadd (a : Vec3) : Vec3.zero.add a = a := by
  cases a
  simp only [Vec3.add, Vec3.zero, Vec3.mk.injEq]
  exact ⟨by ring, by ring, by ring⟩

theorem vsum_foldl_init (l : List Vec3) : ∀ init : Vec3,
    l.foldl Vec3.add init = init.add (vsum l) := by
  induction l with
  | nil =>
    intro init
    simp [vsum, vadd_zero]
  | cons a l ih =>
    intro init
    show l.foldl Vec3.add (init.add a) = init.add (vsum (a :: l))
    rw [ih (init.add a), vadd_assoc]
    congr 1
    show a.add (vsum l) = l.foldl Vec3.add (Vec3.zero.add a)
    rw [ih (Vec3.zero.add a), zero_vadd]

theorem vsum_cons (a : Vec3) (l : List Vec3) : vsum (a :: l) = a.add (vsum l) := by
  show l.foldl Vec3.add (Vec3.zero.add a) = a.add (vsum l)
  rw [vsum_foldl_init l (Vec3.zero.add a), zero_vadd]

theorem mulVec_add (m : Mat3) (a b : Vec3) :
    m.mulVec (a.add b) = (m.mulVec a).add (m.mulVec b) := by
  simp only [Mat3.mulVec, Vec3.add, Vec3.mk.injEq]
  exact ⟨by ring, by ring, by ring⟩

theorem mulVec_smul (m : Mat3) (q : ℚ) (a : Vec3) :
    m.mulVec (Vec3.smul q a) = Vec3.smul q (m.mulVec a) := by
  simp only [Mat3.mulVec, Vec3.smul, Vec3.mk.injEq]
  exact ⟨by ring, by ring, by ring⟩

theorem mulVec_zero (m : Mat3) : m.mulVec Vec3.zero = Vec3.zero := by
  simp only [Mat3.mulVec, Vec3.zero, Vec3.mk.injEq]
  exact ⟨by ring, by ring, by ring⟩

theorem vsum_map_apply (M : Mat4) (l : List Vec3) :
    vsum (l.map M.apply) = (M.lin.mulVec (vsum l)).add
      (Vec3.smul (l.length : ℚ) M.trans) := by
  induction l with
  | nil =>
    simp only [List.map_nil, vsum, List.foldl_nil, mulVec_zero, List.length_nil]
    simp only [Vec3.smul, Vec3.add, Vec3.zero, Vec3.mk.injEq]
    exact ⟨by ring, by ring, by ring⟩
  | cons a l ih =>
    rw [List.map_cons, vsum_cons, ih, vsum_cons, mulVec_add]
    simp only [List.length_cons, Nat.cast_add, Nat.cast_one, Mat4.apply]
    simp only [Vec3.add, Vec3.smul, Vec3.mk.injEq]
    exact ⟨by ring, by ring, by ring⟩

/-- C4 (amended): the bounding-sphere center is the world transform of
the average of the 8 local bounding-box corners — equivalently (the
world matrix acting affinely and the 8 weights summing to 1) the average
of the 8 world-transformed corners; the radius is `1.732 × max world
dimension / 2`, where `1.732` is the source's decimal float literal, an
approximation of √3 rather than √3 itself. -/
theorem bounding_sphere_center_affine_radius_formula (M : Mat4) (corners : List Vec3)
    (d : Vec3) (h8 : corners.length = 8) :
    bounding_sphere_center M corners = Vec3.smul (1/8) (vsum (corners.map M.apply)) ∧
    bounding_sphere_radius d = 1732/1000 * maxDim d / 2 := by
  refine ⟨?_, rfl⟩
  rw [bounding_sphere_center, Mat4.apply, mulVec_smul, vsum_map_apply, h8]
  simp only [Vec3.smul, Vec3.add, Vec3.mk.injEq, Nat.cast_ofNat]
  exact ⟨by ring, by ring, by ring⟩

/-- Witness for the amended C4 at a concrete 8-corner box. -/
theorem bounding_sphere_center_affine_radius_formula_witness :
    ([Vec3.zero, Vec3.zero, Vec3.zero, Vec3.zero, Vec3.zero, Vec3.zero, Vec3.zero,
        Vec3.zero].length = 8) ∧
    bounding_sphere_radius ⟨2, 1, 1⟩ = 1732/1000 * maxDim ⟨2, 1, 1⟩ / 2 :=
  ⟨rfl,
   (bounding_sphere_center_affine_radius_formula Mat4.id
      [Vec3.zero, Vec3.zero, Vec3.zero, Vec3.zero, Vec3.zero, Vec3.zero, Vec3.zero,
        Vec3.zero] ⟨2, 1, 1⟩ rfl).2⟩

/-- C4 counterexample: at world dimensions `(2, 1, 1)` the code's radius
is `1.732`, which is not `√3 × 2 / 2 = √3`: the claim's √3 formula does
not match the source's decimal literal. -/
theorem bounding_sphere_radius_ne_sqrt3_formula :
    ((bounding_sphere_radius ⟨2, 1, 1⟩ : ℚ) : ℝ)
      ≠ Real.sqrt 3 * ((maxDim ⟨2, 1, 1⟩ : ℚ) : ℝ) / 2 := by
  have h2 : maxDim ⟨2, 1, 1⟩ = 2 := by
    rw [maxDim]
    norm_num
  have h1 : bounding_sphere_radius ⟨2, 1, 1⟩ = 1732/1000 := by
    rw [bounding_sphere_radius, h2]
    norm_num
  rw [h1, h2]
  intro h
  push_cast at h
  have h4 : Real.sqrt 3 = 1732/1000 := by linarith
  have h5 : ((1732 : ℝ)/1000) ^ 2 = 3 := by
    rw [← h4, Real.sq_sqrt]
    norm_num
  norm_num at h5

/-!
## UV animation (material_helper.get_uv_animation, lines 187-238)
-/

/-- A keyframe of an f-curve: `frame.co` is `(frame number, value)`. -/
structure Keyframe where
  co : ℚ × ℚ
deriving DecidableEq, Repr

/-- An animation f-curve: data path, array index and keyframes. -/
structure FCurve where
  data_path : String
  array_index : Nat
  keyframe_points : List Keyframe
deriving DecidableEq, Repr

/-- `dff.UVFrame(time, uv, prev)`. -/
structure UVFrame where
  time : ℚ
  uv : List ℚ
  prev : Int
deriving DecidableEq, Repr

/-- `dff.UVAnim`.  Modelled from the spec: a fresh `UVAnim()` has no
frames and duration 0 (the `gtaLib.dff` module is not in the exporter
source; per the spec the duration records the running maximum of the
frame times). -/
structure UVAnim where
  name : String
  frames : List UVFrame
  duration : ℚ
deriving DecidableEq, Repr

/-- The `uv_offset` dict of lines 213-216: offset into the 6-slot UV
array for each recognized data path. -/
def uv_offset (p : String) : Option Nat :=
  if p = "nodes[\"Mapping\"].inputs[1].default_value" then some 4
  else if p = "nodes[\"Mapping\"].inputs[3].default_value" then some 1
  else none

/-- The default `dff.UVFrame(0, [0]*6, i-1)` appended at line 226. -/
def uvframe0 (i : Nat) : UVFrame := ⟨0, [0, 0, 0, 0, 0, 0], (i : Int) - 1⟩

/-- The body of the keyframe loop (lines 225-236) for index `i`: append
a default frame if the list is short, overwrite slot `off + ai` of the
frame's UV array and the frame's time, and fold the time into the
running duration maximum.  The access `anim.frames[i]` is always in
range because the loop visits `i = 0, 1, ...` in order; the `getD`
fallback is never taken. -/
def pk_step (fps : ℚ) (off ai i : Nat) (anim : UVAnim) (kf : Keyframe) : UVAnim :=
  let frames := if anim.frames.length ≤ i then anim.frames ++ [uvframe0 i] else anim.frames
  let fr := frames.getD i (uvframe0 i)
  ⟨anim.name, frames.set i ⟨kf.co.1 / fps, fr.uv.set (off + ai) kf.co.2, fr.prev⟩,
   max (kf.co.1 / fps) anim.duration⟩

/-- Lines 223-236: the keyframe loop of one recognized curve. -/
def process_keyframes (fps : ℚ) (off ai : Nat) : Nat → UVAnim → List Keyframe → UVAnim
  | _, anim, [] => anim
  | i, anim, kf :: rest =>
    process_keyframes fps off ai (i + 1) (pk_step fps off ai i anim kf) rest

/-- Lines 206-221: per-curve dispatch — curves with `array_index > 1` or
an unrecognized data path are skipped. -/
def process_curve (fps : ℚ) (anim : UVAnim) (c : FCurve) : UVAnim :=
  if 1 < c.array_index then anim
  else
    match uv_offset c.data_path with
    | none => anim
    | some off => process_keyframes fps off c.array_index 0 anim c.keyframe_points

/-- `material_helper.get_uv_animation` (lines 187-238): `None` unless
the export flag, the principled wrapper, the mapping node and the
animation data are all present; otherwise every f-curve of the action is
folded over a fresh named track. -/
def get_uv_animation (export_animation : Bool) (animation_name : String)
    (has_principled has_mapping_node : Bool) (anim_data : Option (List FCurve))
    (fps : ℚ) : Option UVAnim :=
  if !export_animation then none
  else if has_principled then
    if has_mapping_node then
      match anim_data with
      | some curves =>
        some (curves.foldl (process_curve fps) ⟨animation_name, [], 0⟩)
      | none => none
    else none
  else none

/-- A curve contributes to the track iff its array index is at most 1
and its data path is recognized. -/
def curve_relevant (c : FCurve) : Bool :=
  decide (c.array_index ≤ 1) && (uv_offset c.data_path).isSome

/-- Spec-side: the maximum of a track's frame times, as a fold from 0
(the track times are non-negative frame numbers divided by the frame
rate). -/
def spec_max_frame_time (frames : List UVFrame) : ℚ :=
  (frames.map (fun f => f.time)).foldl (fun a t => max t a) 0

/-- The running-maximum fold underlying the duration updates. -/
def listMaxQ (ts : List ℚ) (d : ℚ) : ℚ := ts.foldl (fun a t => max t a) d

theorem listMaxQ_nil (d : ℚ) : listMaxQ [] d = d := rfl

theorem listMaxQ_cons (t : ℚ) (ts : List ℚ) (d : ℚ) :
    listMaxQ (t :: ts) d = listMaxQ ts (max t d) := rfl

theorem listMaxQ_ge (ts : List ℚ) : ∀ d : ℚ, d ≤ listMaxQ ts d := by
  induction ts with
  | nil => intro d; exact le_refl d
  | cons t ts ih =>
    intro d
    rw [listMaxQ_cons]
    exact le_trans (le_max_right t d) (ih (max t d))

theorem listMaxQ_max (ts : List ℚ) : ∀ d e : ℚ,
    listMaxQ ts (max d e) = max (listMaxQ ts d) e := by
  induction ts with
  | nil => intro d e; rfl
  | cons t ts ih =>
    intro d e
    rw [listMaxQ_cons, listMaxQ_cons, ← ih (max t d) e]
    congr 1
    exact (max_assoc t d e).symm

theorem listMaxQ_idem (ts : List ℚ) :
    listMaxQ ts (listMaxQ ts 0) = listMaxQ ts 0 := by
  have h0 : (0 : ℚ) ≤ listMaxQ ts 0 := listMaxQ_ge ts 0
  have h1 : max (0 : ℚ) (listMaxQ ts 0) = listMaxQ ts 0 := max_eq_right h0
  calc listMaxQ ts (listMaxQ ts 0)
      = listMaxQ ts (max 0 (listMaxQ ts 0)) := by rw [h1]
    _ = max (listMaxQ ts 0) (listMaxQ ts 0) := listMaxQ_max ts 0 (listMaxQ ts 0)
    _ = listMaxQ ts 0 := max_self _

theorem listMaxQ_bound (ts : List ℚ) : ∀ (d t : ℚ), t ∈ ts → t ≤ listMaxQ ts d := by
  induction ts with
  | nil => intro d t ht; cases ht
  | cons u ts ih =>
    intro d t ht
    rw [listMaxQ_cons]
    rcases List.mem_cons.mp ht with rfl | ht'
    · exact le_trans (le_max_left t d) (listMaxQ_ge ts (max t d))
    · exact ih (max u d) t ht'

theorem listMaxQ_mem (ts : List ℚ) : ∀ d : ℚ,
    listMaxQ ts d = d ∨ ∃ t ∈ ts, listMaxQ ts d = t := by
  induction ts with
  | nil => intro d; exact Or.inl rfl
  | cons u ts ih =>
    intro d
    rw [listMaxQ_cons]
    rcases ih (max u d) with h | ⟨t, ht, hh⟩
    · rcases le_total u d with hud | hdu
      · rw [h, max_eq_right hud]
        exact Or.inl rfl
      · rw [h, max_eq_left hdu]
        exact Or.inr ⟨u, List.mem_cons_self _ _, rfl⟩
    · exact Or.inr ⟨t, List.mem_cons_of_mem u ht, hh⟩

theorem take_succ_set_eq (l : List α) : ∀ (i : Nat) (a : α), i < l.length →
    (l.set i a).take (i + 1) = l.take i ++ [a] := by
  induction l with
  | nil => intro i a h; cases h
  | cons x xs ih =>
    intro i a h
    cases i with
    | zero => rfl
    | succ i =>
      show x :: (xs.set i a).take (i + 1) = x :: xs.take i ++ [a]
      rw [ih i a (Nat.lt_of_succ_lt_succ h)]
      rfl

theorem set_append_singleton (l : List α) (x a : α) :
    (l ++ [x]).set l.length a = l ++ [a] := by
  induction l with
  | nil => rfl
  | cons y ys ih =>
    show y :: (ys ++ [x]).set ys.length a = y :: (ys ++ [a])
    rw [ih]

theorem set_append_singleton_at (l : List α) (x a : α) (i : Nat) (h : l.length = i) :
    (l ++ [x]).set i a = l ++ [a] := by
  subst h
  exact set_append_singleton l x a

theorem pk_step_name (fps : ℚ) (off ai i : Nat) (anim : UVAnim) (kf : Keyframe) :
    (pk_step fps off ai i anim kf).name = anim.name := rfl

theorem pk_step_duration (fps : ℚ) (off ai i : Nat) (anim : UVAnim) (kf : Keyframe) :
    (pk_step fps off ai i anim kf).duration = max (kf.co.1 / fps) anim.duration := rfl

theorem pk_step_length_append (fps : ℚ) (off ai i : Nat) (anim : UVAnim) (kf : Keyframe)
    (h : anim.frames.length = i) :
    (pk_step fps off ai i anim kf).frames.length = i + 1 := by
  simp only [pk_step]
  rw [if_pos (le_of_eq h)]
  simp [h]

theorem pk_step_length_lt (fps : ℚ) (off ai i : Nat) (anim : UVAnim) (kf : Keyframe)
    (h : i < anim.frames.length) :
    (pk_step fps off ai i anim kf).frames.length = anim.frames.length := by
  simp only [pk_step]
  rw [if_neg (by omega)]
  simp

theorem pk_step_times_append (fps : ℚ) (off ai i : Nat) (anim : UVAnim) (kf : Keyframe)
    (h : anim.frames.length = i) :
    (pk_step fps off ai i anim kf).frames.map (fun f => f.time)
      = anim.frames.map (fun f => f.time) ++ [kf.co.1 / fps] := by
  simp only [pk_step]
  rw [if_pos (le_of_eq h)]
  rw [List.map_set, List.map_append, List.map_cons, List.map_nil]
  have hl : (anim.frames.map (fun f => f.time)).length = i := by simp [h]
  rw [set_append_singleton_at _ _ _ _ hl]

theorem pk_step_times_set (fps : ℚ) (off ai i : Nat) (anim : UVAnim) (kf : Keyframe)
    (h : i < anim.frames.length) :
    (pk_step fps off ai i anim kf).frames.map (fun f => f.time)
      = (anim.frames.map (fun f => f.time)).set i (kf.co.1 / fps) := by
  simp only [pk_step]
  rw [if_neg (by omega)]
  rw [List.map_set]

theorem process_keyframes_spec (fps : ℚ) (off ai : Nat) (kfs : List Keyframe) :
    ∀ (i : Nat) (anim : UVAnim),
      (anim.frames.length = i ∨ anim.frames.length = i + kfs.length) →
      (process_keyframes fps off ai i anim kfs).name = anim.name ∧
      (process_keyframes fps off ai i anim kfs).frames.length = i + kfs.length ∧
      (process_keyframes fps off ai i anim kfs).frames.map (fun f => f.time)
        = (anim.frames.map (fun f => f.time)).take i ++ kfs.map (fun k => k.co.1 / fps) ∧
      (process_keyframes fps off ai i anim kfs).duration
        = listMaxQ (kfs.map (fun k => k.co.1 / fps)) anim.duration := by
  induction kfs with
  | nil =>
    intro i anim h
    have hl : anim.frames.length = i := by
      rcases h with h | h
      · exact h
      · simpa using h
    refine ⟨rfl, by simpa [process_keyframes] using hl, ?_, rfl⟩
    simp only [process_keyframes]
    rw [List.map_nil, List.append_nil,
      List.take_of_length_le (le_of_eq (by simpa using hl))]
  | cons kf rest ih =>
    intro i anim h
    simp only [process_keyframes]
    rcases h with h1 | h2
    · obtain ⟨N, L, T, D⟩ := ih (i + 1) (pk_step fps off ai i anim kf)
        (Or.inl (pk_step_length_append fps off ai i anim kf h1))
      refine ⟨by rw [N, pk_step_name], by rw [L, List.length_cons]; omega, ?_, ?_⟩
      · rw [T, pk_step_times_append fps off ai i anim kf h1]
        have hl : (anim.frames.map (fun f => f.time)).length = i := by simp [h1]
        rw [List.take_of_length_le (by simp [hl] : (anim.frames.map (fun f => f.time)
              ++ [kf.co.1 / fps]).length ≤ i + 1),
          List.take_of_length_le (le_of_eq hl)]
        simp
      · rw [D, pk_step_duration, List.map_cons, listMaxQ_cons]
    · have hlt : i < anim.frames.length := by
        rw [h2, List.length_cons]
        omega
      obtain ⟨N, L, T, D⟩ := ih (i + 1) (pk_step fps off ai i anim kf)
        (Or.inr (by
          rw [pk_step_length_lt fps off ai i anim kf hlt, h2, List.length_cons]
          omega))
      refine ⟨by rw [N, pk_step_name], by rw [L, List.length_cons]; omega, ?_, ?_⟩
      · rw [T, pk_step_times_set fps off ai i anim kf hlt]
        have hlt' : i < (anim.frames.map (fun f => f.time)).length := by simpa using hlt
        rw [take_succ_set_eq _ i _ hlt']
        simp
      · rw [D, pk_step_duration, List.map_cons, listMaxQ_cons]

theorem process_curve_irrelevant (fps : ℚ) (anim : UVAnim) (c : FCurve)
    (h : curve_relevant c = false) : process_curve fps anim c = anim := by
  rw [process_curve]
  by_cases hai : 1 < c.array_index
  · rw [if_pos hai]
  · rw [if_neg hai]
    have hnone : uv_offset c.data_path = none := by
      simp only [curve_relevant, Bool.and_eq_false_iff] at h
      rcases h with h1 | h2
      · exfalso
        rw [decide_eq_false_iff_not] at h1
        exact h1 (by omega)
      · exact Option.not_isSome_iff_eq_none.mp (by simp [h2])
    rw [hnone]

theorem foldl_process_curve_inv (fps : ℚ) (xs : List ℚ) :
    ∀ (curves : List FCurve) (anim : UVAnim),
      (∀ c ∈ curves, curve_relevant c = true →
        c.keyframe_points.map (fun k => k.co.1) = xs) →
      ((anim.frames = [] ∧ anim.duration = 0) ∨
       (anim.frames.map (fun f => f.time) = xs.map (fun x => x / fps) ∧
        anim.duration = listMaxQ (xs.map (fun x => x / fps)) 0)) →
      (curves.foldl (process_curve fps) anim).name = anim.name ∧
      (((curves.foldl (process_curve fps) anim) = anim ∧
        ∀ c ∈ curves, curve_relevant c = false) ∨
       ((curves.foldl (process_curve fps) anim).frames.map (fun f => f.time)
          = xs.map (fun x => x / fps) ∧
        (curves.foldl (process_curve fps) anim).duration
          = listMaxQ (xs.map (fun x => x / fps)) 0)) := by
  intro curves
  induction curves with
  | nil =>
    intro anim _ _
    exact ⟨rfl, Or.inl ⟨rfl, by simp⟩⟩
  | cons c cs ih =>
    intro anim hfx hinv
    cases hr : curve_relevant c
    · -- irrelevant curve: fold state unchanged
      have hpc : process_curve fps anim c = anim := process_curve_irrelevant fps anim c hr
      have step := ih (process_curve fps anim c)
        (fun d hd hrel => hfx d (List.mem_cons_of_mem c hd) hrel)
        (by rw [hpc]; exact hinv)
      rw [List.foldl_cons, hpc]
      rw [hpc] at step
      refine ⟨step.1, ?_⟩
      rcases step.2 with ⟨he, hall⟩ | hgood
      · exact Or.inl ⟨he, by
          intro d hd
          rcases List.mem_cons.mp hd with rfl | hd'
          · exact hr
          · exact hall d hd'⟩
      · exact Or.inr hgood
    · -- relevant curve: the track is (re)written with this curve's times
      have hai : c.array_index ≤ 1 := by
        have := hr
        simp only [curve_relevant, Bool.and_eq_true, decide_eq_true_eq] at this
        exact this.1
      obtain ⟨off, hoff⟩ : ∃ off, uv_offset c.data_path = some off := by
        have := hr
        simp only [curve_relevant, Bool.and_eq_true, Option.isSome_iff_exists] at this
        exact this.2
      have hpc : process_curve fps anim c
          = process_keyframes fps off c.array_index 0 anim c.keyframe_points := by
        rw [process_curve, if_neg (by omega), hoff]
      have hx : c.keyframe_points.map (fun k => k.co.1) = xs :=
        hfx c (List.mem_cons_self _ _) hr
      have hxt : c.keyframe_points.map (fun k => k.co.1 / fps)
          = xs.map (fun x => x / fps) := by
        rw [← hx, List.map_map]
        rfl
      have hpre : anim.frames.length = 0 ∨
          anim.frames.length = 0 + c.keyframe_points.length := by
        rcases hinv with ⟨he, _⟩ | ⟨ht, _⟩
        · exact Or.inl (by rw [he]; rfl)
        · right
          have h1 : anim.frames.length = (xs.map (fun x => x / fps)).length := by
            rw [← ht, List.length_map]
          have h2 : c.keyframe_points.length = xs.length := by
            rw [← hx, List.length_map]
          rw [h1, List.length_map, h2]
          omega
      obtain ⟨N, _, T, D⟩ := process_keyframes_spec fps off c.array_index
        c.keyframe_points 0 anim hpre
      have hT : (process_keyframes fps off c.array_index 0 anim
          c.keyframe_points).frames.map (fun f => f.time) = xs.map (fun x => x / fps) := by
        rw [T, List.take_zero, List.nil_append, hxt]
      have hD : (process_keyframes fps off c.array_index 0 anim
          c.keyframe_points).duration = listMaxQ (xs.map (fun x => x / fps)) 0 := by
        rw [D, hxt]
        rcases hinv with ⟨_, hd0⟩ | ⟨_, hdM⟩
        · rw [hd0]
        · rw [hdM]
          exact listMaxQ_idem _
      rw [List.foldl_cons]
      have step := ih (process_curve fps anim c)
        (fun d hd hrel => hfx d (List.mem_cons_of_mem c hd) hrel)
        (by rw [hpc]; exact Or.inr ⟨hT, hD⟩)
      refine ⟨by rw [step.1, hpc, N], ?_⟩
      rcases step.2 with ⟨he, _⟩ | hgood
      · rw [he, hpc]
        exact Or.inr ⟨hT, hD⟩
      · exact Or.inr hgood

/-- C7 (amended): when every curve contributing to the track is keyed at
the same frame numbers — with at least one contributing curve, at least
one keyframe, non-negative frame numbers and a positive frame rate —
the track's duration equals the maximum of its frames' times (each time
being the keyframe's frame number divided by the scene frame rate).
Without the shared-keying hypothesis the duration is only the running
maximum over every processed keyframe and can exceed every final frame
time (see the counterexample). -/
theorem uv_anim_duration_eq_max_frame_time (nm : String) (curves : List FCurve)
    (fps : ℚ) (xs : List ℚ)
    (hfps : 0 < fps)
    (hfx : ∀ c ∈ curves, curve_relevant c = true →
      c.keyframe_points.map (fun k => k.co.1) = xs)
    (hrel : ∃ c ∈ curves, curve_relevant c = true)
    (hne : xs ≠ [])
    (hpos : ∀ x ∈ xs, 0 ≤ x) :
    ∃ A : UVAnim, get_uv_animation true nm true true (some curves) fps = some A ∧
      A.frames.map (fun f => f.time) = xs.map (fun x => x / fps) ∧
      A.duration = spec_max_frame_time A.frames ∧
      (∀ f ∈ A.frames, f.time ≤ A.duration) ∧
      (∃ f ∈ A.frames, f.time = A.duration) := by
  refine ⟨curves.foldl (process_curve fps) ⟨nm, [], 0⟩, rfl, ?_⟩
  have hinv := foldl_process_curve_inv fps xs curves ⟨nm, [], 0⟩ hfx
    (Or.inl ⟨rfl, rfl⟩)
  rcases hinv.2 with ⟨_, hall⟩ | ⟨hT, hD⟩
  · exfalso
    obtain ⟨c, hc, hrt⟩ := hrel
    rw [hall c hc] at hrt
    cases hrt
  · refine ⟨hT, ?_, ?_, ?_⟩
    · rw [hD, spec_max_frame_time, hT]
      rfl
    · intro f hf
      rw [hD]
      exact listMaxQ_bound _ _ _ (hT ▸ List.mem_map_of_mem (fun f => f.time) hf)
    · -- the duration is attained by some frame
      rcases listMaxQ_mem (xs.map (fun x => x / fps)) 0 with h0 | ⟨t, ht, htt⟩
      · -- running max stayed at 0: every time is 0 and the track is nonempty
        cases hxs : xs with
        | nil => exact absurd hxs hne
        | cons x xr =>
          have hx0 : 0 ≤ x / fps := div_nonneg (hpos x (hxs ▸ List.mem_cons_self x xr))
            (le_of_lt hfps)
          have hxle : x / fps ≤ listMaxQ (xs.map (fun x => x / fps)) 0 := by
            apply listMaxQ_bound
            rw [hxs]
            exact List.mem_cons_self _ _
          cases hfr : (curves.foldl (process_curve fps) ⟨nm, [], 0⟩).frames with
          | nil =>
            exfalso
            rw [hfr, hxs] at hT
            exact absurd hT.symm (by simp)
          | cons f0 frs =>
            refine ⟨f0, List.mem_cons_self _ _, ?_⟩
            have hf0 : f0.time = x / fps := by
              rw [hfr, hxs] at hT
              simpa using congrArg (fun l => l.headD 0) hT
            rw [hD, h0, hf0]
            rw [h0] at hxle
            linarith
      · -- the maximum is one of the times
        rw [← hT] at ht
        obtain ⟨f, hf, hft⟩ := List.mem_map.mp ht
        exact ⟨f, hf, by rw [hD, htt, hft]⟩

/-- Witness for the amended C7: one contributing curve keyed at frame 10. -/
theorem uv_anim_duration_eq_max_frame_time_witness :
    ((0 : ℚ) < 1) ∧
    (∃ A : UVAnim, get_uv_animation true "anim"
        true true (some [⟨"nodes[\"Mapping\"].inputs[1].default_value", 0,
          [⟨(10, 1/2)⟩]⟩]) 1 = some A ∧
      A.frames.map (fun f => f.time) = [(10 : ℚ)].map (fun x => x / 1) ∧
      A.duration = spec_max_frame_time A.frames ∧
      (∀ f ∈ A.frames, f.time ≤ A.duration) ∧
      (∃ f ∈ A.frames, f.time = A.duration)) :=
  ⟨by norm_num,
   uv_anim_duration_eq_max_frame_time "anim"
     [⟨"nodes[\"Mapping\"].inputs[1].default_value", 0, [⟨(10, 1/2)⟩]⟩] 1 [10]
     (by norm_num)
     (by
       intro c hc _
       rcases List.mem_cons.mp hc with rfl | hc'
       · rfl
       · cases hc')
     ⟨⟨"nodes[\"Mapping\"].inputs[1].default_value", 0, [⟨(10, 1/2)⟩]⟩,
       List.mem_cons_self _ _, rfl⟩
     (by simp)
     (by
       intro x hx
       rcases List.mem_cons.mp hx with rfl | hx'
       · norm_num
       · cases hx')⟩

/-- C7 counterexample: two curves on the same data path keyed at
different frame numbers (10 and 5).  The second curve overwrites the
frame's time with 5, but the duration keeps the running maximum 10, so
the duration is not the maximum of the final frame times. -/
theorem uv_anim_duration_not_max_frame_time :
    get_uv_animation true "anim" true true
        (some [⟨"nodes[\"Mapping\"].inputs[1].default_value", 0, [⟨(10, 1/2)⟩]⟩,
               ⟨"nodes[\"Mapping\"].inputs[1].default_value", 1, [⟨(5, 1/3)⟩]⟩]) 1
      = some ⟨"anim", [⟨5, [0, 0, 0, 0, 1/2, 1/3], -1⟩], 10⟩ ∧
    spec_max_frame_time [⟨5, [0, 0, 0, 0, (1 : ℚ)/2, 1/3], (-1 : Int)⟩] = 5 ∧
    (10 : ℚ) ≠ 5 := by
  refine ⟨?_, ?_, by norm_num⟩
  · simp only [get_uv_animation, Bool.not_true, Bool.false_eq_true, if_false, if_true,
      List.foldl_cons, List.foldl_nil, process_curve, process_keyframes, pk_step,
      uv_offset, uvframe0]
    norm_num
  · simp only [spec_max_frame_time, List.map_cons, List.map_nil, List.foldl_cons,
      List.foldl_nil]
    norm_num

/-!
## Frames, registries and the export pass

`create_frame` (dff_exporter.py lines 298-339) builds one `dff.Frame`
per scene node or bone, resolving the parent through the shared
name-to-index registries (`frames` for objects, `bones` for bones) and
scanning the `parent_queue`.  `export_armature` (lines 755-800) emits
one frame per bone; `populate_atomic` (lines 672-726) emits the frame,
geometry and atomic of a mesh; `export_objects` (lines 803-854)
dispatches over the sorted object list, clump by clump.  The class-level
mutable state becomes explicit: the registries travel as a `Regs`
record, the clump map as an association list.
-/

/-- `clear_extension` helper: index of the last `.` in a character list
(`str.rfind('.')`), `none` when absent. -/
def rfindDot : List Char → Option Nat
  | [] => none
  | c :: cs =>
    match rfindDot cs with
    | some k => some (k + 1)
    | none => if c = '.' then some 0 else none

/-- `dff_exporter.clear_extension` (lines 28-31): cut the string at the
last period. -/
def clear_extension (s : String) : String :=
  match rfindDot s.toList with
  | none => s
  | some k => ⟨s.toList.take k⟩

/-- A `dff.UserData.from_mem` payload, kept as its raw blob (the
`gtaLib.dff` module is not part of the exporter source). -/
def UserData := List Nat
deriving DecidableEq, Repr

/-- `dff.HAnimHeader(version, id, bone_count)`. -/
structure HAnimHeader where
  version : Nat
  id : Int
  bone_count : Nat
deriving DecidableEq, Repr

/-- `dff.Bone(id, index, type)` entries of the root bone's array. -/
structure BoneRec where
  id : Int
  index : Nat
  bone_type : Int
deriving DecidableEq, Repr

/-- `dff.HAnimPLG`: header plus (for the first bone) the bone array. -/
structure HAnimPLG where
  header : HAnimHeader
  bones : List BoneRec
deriving DecidableEq, Repr

/-- `dff.Frame` as `create_frame` fills it: name, creation flags, parent
index (−1 for root), translation, transposed 3x3 rotation, optional user
data, optional bone payload. -/
structure Frame where
  name : String
  creation_flags : Nat
  parent : Int
  position : Vec3
  rotation_matrix : Mat3
  user_data : Option UserData
  bone_data : Option HAnimPLG
deriving DecidableEq, Repr

/-- The attributes `create_frame` reads off its argument, which at
runtime is either a `bpy` object or a bone (`is_bone` is the
`type(obj) is bpy.types.Bone` test). -/
structure Node where
  name : String
  parent : Option String
  matrix_local : Mat4
  user_data : Option UserData
  is_bone : Bool
deriving DecidableEq, Repr

/-- The exporter's class-level registries: `frames`, `bones` (name to
frame index; Python dict assignment modelled by prepending, lookup by
first match) and the `parent_queue`. -/
structure Regs where
  frames : List (String × Nat)
  bones : List (String × Nat)
  parent_queue : List (String × Nat)
deriving DecidableEq, Repr

/-- Fresh registries (the state of a new export pass). -/
def Regs.empty : Regs := ⟨[], [], []⟩

/-- Dict lookup (`d[k]`, as `Option`). -/
def lookupReg (l : List (String × Nat)) (k : String) : Option Nat :=
  (l.find? (fun p => p.1 == k)).map (fun p => p.2)

/-- Dict assignment `d[k] = v` (prepend; first match wins on lookup). -/
def insertReg (l : List (String × Nat)) (k : String) (v : Nat) : List (String × Nat) :=
  (k, v) :: l

/-- `dff.Atomic._make((frame, geometry, flags, unk))`. -/
structure Atomic where
  frame : Nat
  geometry : Nat
  flags : Nat
  unk : Nat
deriving DecidableEq, Repr

/-- `dff.Clump`: the lists the exporter appends to. -/
structure Clump where
  frame_list : List Frame
  geometry_list : List Geometry
  atomic_list : List Atomic
deriving DecidableEq, Repr

/-- A fresh `dff.Clump()`. -/
def Clump.empty : Clump := ⟨[], [], []⟩

/-- `frame_list[index].parent = frame_index` for one queue entry (the
index is valid in every reachable state; Python would raise otherwise). -/
def setFrameParent (fl : List Frame) (i : Nat) (p : Int) : List Frame :=
  match fl.get? i with
  | some fr => fl.set i { fr with parent := p }
  | none => fl

/-- The parent-queue scan of lines 312-315: patch the recorded pending
frame's parent to the new frame's index for every queue entry matching
the new node's name. -/
def backpatch (pq : List (String × Nat)) (objName : String) (frame_index : Nat)
    (fl : List Frame) : List Frame :=
  pq.foldl (fun acc e => if e.1 == objName then setFrameParent acc e.2 (Int.ofNat frame_index)
    else acc) fl

/-- `dff_exporter.create_frame` (lines 298-339).  The parent lookup
`id_array[obj.parent.name]` raises `KeyError` (here `none`) when the
parent name was never registered. -/
def create_frame (rg : Regs) (cl : Clump) (obj : Node) (append set_parent : Bool) :
    Option (Frame × Clump × Regs) :=
  let frame_index := cl.frame_list.length
  let fl := backpatch rg.parent_queue obj.name frame_index cl.frame_list
  let parentR : Option Int :=
    if set_parent then
      match obj.parent with
      | some pname =>
        (lookupReg (if obj.is_bone then rg.bones else rg.frames) pname).map Int.ofNat
      | none => some (-1)
    else some (-1)
  match parentR with
  | none => none
  | some par =>
    let frame : Frame :=
      { name := clear_extension obj.name
        creation_flags := 0
        parent := par
        position := obj.matrix_local.to_translation
        rotation_matrix := (obj.matrix_local.to_3x3).transposed
        user_data := obj.user_data
        bone_data := none }
    let rg2 :=
      if obj.is_bone then { rg with bones := insertReg rg.bones obj.name frame_index }
      else { rg with frames := insertReg rg.frames obj.name frame_index }
    some (frame, { cl with frame_list := if append then fl ++ [frame] else fl }, rg2)

/-- A bone of the exported armature: the node attributes plus the
custom properties `bone["bone_id"]` and `bone["type"]` (required by
`export_armature`; a rig without them aborts the export). -/
structure BoneN where
  name : String
  parent : Option String
  matrix_local : Mat4
  user_data : Option UserData
  bone_id : Int
  bone_type : Int
deriving DecidableEq, Repr

/-- The bone as `create_frame` sees it (`is_bone` true). -/
def BoneN.toNode (b : BoneN) : Node :=
  ⟨b.name, b.parent, b.matrix_local, b.user_data, true⟩

/-- Lines 777-783: the root bone's array of every bone's
`(bone_id, index, type)`. -/
def hanim_bone_array (bones : List BoneN) : List BoneRec :=
  bones.enum.map (fun p => ⟨p.2.bone_id, p.1, p.2.bone_type⟩)

/-- The loop body of `export_armature` (lines 759-800), indexed: the
first bone additionally inherits the armature object's parent (a
`KeyError`, hence `none`, when that parent is unregistered) and carries
the full HAnim bone array; every bone's frame is appended to the clump. -/
def export_armature_go (objParent : Option String) (allBones : List BoneN) :
    Regs → Clump → Nat → List BoneN → Option (Clump × Regs)
  | rg, cl, _, [] => some (cl, rg)
  | rg, cl, index, bone :: rest =>
    match create_frame rg cl bone.toNode false true with
    | none => none
    | some (frame, cl2, rg2) =>
      if index = 0 then
        match (match objParent with
          | some pn => (lookupReg rg2.frames pn).map (fun i => some (Int.ofNat i))
          | none => some none) with
        | none => none
        | some par2 =>
          let frame2 : Frame :=
            { frame with
              parent := par2.getD frame.parent
              bone_data := some ⟨⟨0x100, bone.bone_id, allBones.length⟩,
                hanim_bone_array allBones⟩ }
          export_armature_go objParent allBones rg2
            { cl2 with frame_list := cl2.frame_list ++ [frame2] } (index + 1) rest
      else
        let frame2 : Frame :=
          { frame with bone_data := some ⟨⟨0x100, bone.bone_id, 0⟩, []⟩ }
        export_armature_go objParent allBones rg2
          { cl2 with frame_list := cl2.frame_list ++ [frame2] } (index + 1) rest

/-- The data the dispatch in `export_objects` needs per object kind.
For a mesh the geometry payload is the result of the geometry builder
(`populate_geometry_with_mesh_data`, modelled by the functions above);
its contents do not touch the frame registries. -/
inductive ObjData where
  | mesh (geom : Geometry)
  | empty
  | armature (bones : List BoneN)
deriving DecidableEq, Repr

/-- A scene object as the exporter reads it. -/
structure SceneObj where
  name : String
  parent : Option String
  matrix_local : Mat4
  matrix_world : Mat4
  bound_box : List Vec3
  dimensions : Vec3
  user_data : Option UserData
  clump : Nat
  data : ObjData
deriving DecidableEq, Repr

/-- The scene object as `create_frame` sees it (`is_bone` false). -/
def SceneObj.toNode (o : SceneObj) : Node :=
  ⟨o.name, o.parent, o.matrix_local, o.user_data, false⟩

/-- `dff_exporter.export_armature` (lines 755-800). -/
def export_armature (rg : Regs) (cl : Clump) (obj : SceneObj) (bones : List BoneN) :
    Option (Clump × Regs) :=
  export_armature_go obj.parent bones rg cl 0 bones

/-- `dff_exporter.populate_atomic` (lines 672-726), restricted to the
clump/registry bookkeeping: the geometry payload is built by the
geometry-builder functions modelled above and passed in; here the frame
is created, the bounding sphere attached, and the geometry and atomic
appended. -/
def populate_atomic (rg : Regs) (cl : Clump) (obj : SceneObj) (geom : Geometry) :
    Option (Clump × Regs) :=
  match create_frame rg cl obj.toNode true true with
  | none => none
  | some (_, cl2, rg2) =>
    let geom2 := { geom with
      bounding_sphere := some ⟨(bounding_sphere_center obj.matrix_world obj.bound_box).x,
        (bounding_sphere_center obj.matrix_world obj.bound_box).y,
        (bounding_sphere_center obj.matrix_world obj.bound_box).z,
        bounding_sphere_radius obj.dimensions⟩
      surface_properties := (0, 0, 0) }
    let cl3 := { cl2 with geometry_list := cl2.geometry_list ++ [geom2] }
    let atomic : Atomic := ⟨cl3.frame_list.length - 1, cl3.geometry_list.length - 1, 0x4, 0⟩
    some ({ cl3 with atomic_list := cl3.atomic_list ++ [atomic] }, rg2)

/-- Clump-map lookup (`obj.dff.clump in self.clumps` /
`self.clumps[...]`). -/
def lookupClump (cs : List (Nat × Clump)) (k : Nat) : Option Clump :=
  (cs.find? (fun p => p.1 == k)).map (fun p => p.2)

/-- Write the current clump back into the map (keys are unique by
construction). -/
def updateClump (cs : List (Nat × Clump)) (k : Nat) (c : Clump) : List (Nat × Clump) :=
  cs.map (fun p => if p.1 == k then (k, c) else p)

/-- The per-kind dispatch of `export_objects` (lines 820-829): a mesh
goes through `populate_atomic`, an empty gets a bare frame, an armature
goes through `export_armature`. -/
def dispatch_obj (rg : Regs) (cl : Clump) (obj : SceneObj) : Option (Clump × Regs) :=
  match obj.data with
  | ObjData.mesh geom => populate_atomic rg cl obj geom
  | ObjData.empty =>
    match create_frame rg cl obj.toNode true true with
    | none => none
    | some (_, cl2, rg2) => some (cl2, rg2)
  | ObjData.armature bones => export_armature rg cl obj bones

/-- One iteration of the `for obj in objects` loop of `export_objects`
(lines 813-829): create the object's clump on first use, dispatch on the
object type, and write the current clump back. -/
def export_object_step (st : List (Nat × Clump) × Regs) (obj : SceneObj) :
    Option (List (Nat × Clump) × Regs) :=
  let clumps := if (lookupClump st.1 obj.clump).isSome then st.1
    else st.1 ++ [(obj.clump, Clump.empty)]
  match lookupClump clumps obj.clump with
  | none => none
  | some cl =>
    match dispatch_obj st.2 cl obj with
    | none => none
    | some (cl2, rg2) => some (updateClump clumps obj.clump cl2, rg2)

/-- The object loop of `dff_exporter.export_objects` over the
depth-sorted object list, from a fresh export pass (empty clump map and
registries).  Collision handling and file writing are host-side
side effects past the data model. -/
def export_objects (objs : List SceneObj) : Option (List (Nat × Clump) × Regs) :=
  objs.foldlM export_object_step ([], Regs.empty)

theorem backpatch_nil (objName : String) (fi : Nat) (fl : List Frame) :
    backpatch [] objName fi fl = fl := rfl

theorem create_frame_some_inv (rg : Regs) (cl : Clump) (obj : Node) (append sp : Bool)
    (f : Frame) (cl2 : Clump) (rg2 : Regs)
    (h : create_frame rg cl obj append sp = some (f, cl2, rg2)) :
    rg2.parent_queue = rg.parent_queue ∧
    cl2.frame_list = (if append
      then backpatch rg.parent_queue obj.name cl.frame_list.length cl.frame_list ++ [f]
      else backpatch rg.parent_queue obj.name cl.frame_list.length cl.frame_list) ∧
    cl2.geometry_list = cl.geometry_list ∧
    cl2.atomic_list = cl.atomic_list ∧
    (f.parent = -1 ∨ (sp = true ∧ ∃ p pname, obj.parent = some pname ∧
      lookupReg (if obj.is_bone then rg.bones else rg.frames) pname = some p ∧
      f.parent = Int.ofNat p)) ∧
    ((obj.is_bone = true ∧ rg2.bones = (obj.name, cl.frame_list.length) :: rg.bones ∧
        rg2.frames = rg.frames) ∨
     (obj.is_bone = false ∧ rg2.frames = (obj.name, cl.frame_list.length) :: rg.frames ∧
        rg2.bones = rg.bones)) := by
  simp only [create_frame] at h
  split at h
  · exact absurd h (by simp)
  next par hpar =>
    injection h with h1
    rw [Prod.mk.injEq] at h1
    obtain ⟨hf, hrest⟩ := h1
    rw [Prod.mk.injEq] at hrest
    obtain ⟨hcl, hrg⟩ := hrest
    subst hf
    subst hcl
    subst hrg
    refine ⟨?_, rfl, rfl, rfl, ?_, ?_⟩
    · cases hb : obj.is_bone <;> simp [hb]
    · -- characterize the parent value
      by_cases hsp : sp
      · subst hsp
        rw [if_pos rfl] at hpar
        cases hp : obj.parent with
        | none =>
          simp only [hp] at hpar
          injection hpar with hpar'
          exact Or.inl (by simp [← hpar'])
        | some pname =>
          simp only [hp] at hpar
          cases hlk : lookupReg (if obj.is_bone then rg.bones else rg.frames) pname with
          | none =>
            rw [hlk] at hpar
            exact absurd hpar (by simp)
          | some p =>
            rw [hlk] at hpar
            simp only [Option.map_some'] at hpar
            injection hpar with hpar'
            exact Or.inr ⟨rfl, p, pname, rfl, hlk, by simp [← hpar']⟩
      · rw [if_neg hsp] at hpar
        injection hpar with hpar'
        exact Or.inl (by simp [← hpar'])
    · cases hb : obj.is_bone
      · exact Or.inr ⟨rfl, by simp [hb, insertReg], by simp [hb]⟩
      · exact Or.inl ⟨rfl, by simp [hb, insertReg], by simp [hb]⟩

/-- C2 (amended): `create_frame` completes with parent −1 exactly when
there is no parent to set (the node records no parent, or
parent-setting is disabled); but when the node's parent name is absent
from the appropriate registry, `create_frame` raises a `KeyError`
(modelled `none`) rather than silently falling back to −1. -/
theorem create_frame_root_fallback_vs_keyerror (rg : Regs) (cl : Clump) (obj : Node)
    (append : Bool) :
    (obj.parent = none →
      ∃ f cl2 rg2, create_frame rg cl obj append true = some (f, cl2, rg2) ∧
        f.parent = -1) ∧
    (∀ pname, obj.parent = some pname →
      lookupReg (if obj.is_bone then rg.bones else rg.frames) pname = none →
      create_frame rg cl obj append true = none) := by
  constructor
  · intro hp
    simp only [create_frame, hp, if_true]
    exact ⟨_, _, _, rfl, rfl⟩
  · intro pname hp hlook
    simp only [create_frame, hp, if_true, hlook, Option.map_none']

/-- Witness for the amended C2 on a parentless node. -/
theorem create_frame_root_fallback_vs_keyerror_witness :
    ((⟨"helper", none, Mat4.id, none, false⟩ : Node).parent = none) ∧
    (∃ f cl2 rg2, create_frame Regs.empty Clump.empty
        ⟨"helper", none, Mat4.id, none, false⟩ true true = some (f, cl2, rg2) ∧
      f.parent = -1) :=
  ⟨rfl, (create_frame_root_fallback_vs_keyerror Regs.empty Clump.empty
      ⟨"helper", none, Mat4.id, none, false⟩ true).1 rfl⟩

/-- C2 counterexample: a node whose recorded parent "P" was never
registered makes `create_frame` raise `KeyError` (`none` here); it does
not complete with a −1 parent. -/
theorem create_frame_unregistered_parent_raises :
    create_frame Regs.empty Clump.empty
      (⟨"child", some "P", Mat4.id, none, false⟩ : Node) true true = none := rfl

theorem export_armature_go_basic (op : Option String) (allB : List BoneN) :
    ∀ (bones : List BoneN) (rg : Regs) (cl : Clump) (index : Nat) (cl2 : Clump) (rg2 : Regs),
      rg.parent_queue = [] →
      export_armature_go op allB rg cl index bones = some (cl2, rg2) →
      rg2.parent_queue = [] ∧ (∃ t, cl2.frame_list = cl.frame_list ++ t) ∧
      cl2.geometry_list = cl.geometry_list ∧ cl2.atomic_list = cl.atomic_list := by
  intro bones
  induction bones with
  | nil =>
    intro rg cl index cl2 rg2 hq h
    simp only [export_armature_go] at h
    injection h with h1
    rw [Prod.mk.injEq] at h1
    obtain ⟨hc, hr⟩ := h1
    subst hc
    subst hr
    exact ⟨hq, ⟨[], by simp⟩, rfl, rfl⟩
  | cons bone rest ih =>
    intro rg cl index cl2 rg2 hq h
    simp only [export_armature_go] at h
    split at h
    · exact absurd h (by simp)
    next frame cl' rg' hcf =>
      obtain ⟨hq', hfl, hgl, hal, _, _⟩ := create_frame_some_inv _ _ _ _ _ _ _ _ hcf
      rw [hq] at hq' hfl
      rw [backpatch_nil] at hfl
      have hfl' : cl'.frame_list = cl.frame_list := by simpa using hfl
      split at h
      · -- first bone
        split at h
        · exact absurd h (by simp)
        next par2 hpar2 =>
          obtain ⟨q2, ⟨t, ht⟩, g2, a2⟩ := ih rg' _ (index + 1) cl2 rg2 hq' h
          refine ⟨q2, ?_, ?_, ?_⟩
          · exact ⟨_, by
              rw [ht]
              show cl'.frame_list ++ _ ++ t = _
              rw [hfl', List.append_assoc]⟩
          · rw [g2]
            exact hgl
          · rw [a2]
            exact hal
      · -- subsequent bones
        obtain ⟨q2, ⟨t, ht⟩, g2, a2⟩ := ih rg' _ (index + 1) cl2 rg2 hq' h
        refine ⟨q2, ?_, ?_, ?_⟩
        · exact ⟨_, by
            rw [ht]
            show cl'.frame_list ++ _ ++ t = _
            rw [hfl', List.append_assoc]⟩
        · rw [g2]
          exact hgl
        · rw [a2]
          exact hal

theorem populate_atomic_basic (rg : Regs) (cl : Clump) (obj : SceneObj) (geom : Geometry)
    (cl2 : Clump) (rg2 : Regs)
    (hq : rg.parent_queue = [])
    (h : populate_atomic rg cl obj geom = some (cl2, rg2)) :
    rg2.parent_queue = [] ∧ (∃ t, cl2.frame_list = cl.frame_list ++ t) := by
  simp only [populate_atomic] at h
  split at h
  · exact absurd h (by simp)
  next frame cl' rg' hcf =>
    obtain ⟨hq', hfl, _, _, _, _⟩ := create_frame_some_inv _ _ _ _ _ _ _ _ hcf
    rw [hq] at hq' hfl
    rw [backpatch_nil] at hfl
    injection h with h1
    rw [Prod.mk.injEq] at h1
    obtain ⟨hc, hr⟩ := h1
    subst hc
    subst hr
    refine ⟨hq', ⟨[frame], ?_⟩⟩
    show cl'.frame_list = cl.frame_list ++ [frame]
    simpa using hfl

theorem lookupClump_append_right_keep (cs : List (Nat × Clump)) (e : Nat × Clump) (k : Nat)
    (c : Clump) (h : lookupClump cs k = some c) : lookupClump (cs ++ [e]) k = some c := by
  induction cs with
  | nil => simp [lookupClump] at h
  | cons p ps ih =>
    simp only [lookupClump, List.cons_append, List.find?] at h ⊢
    cases hp : p.1 == k
    · simp only [hp] at h ⊢
      exact ih h
    · simpa [hp] using h

theorem updateClump_cons (p : Nat × Clump) (ps : List (Nat × Clump)) (k0 : Nat) (c : Clump) :
    updateClump (p :: ps) k0 c =
      (if p.1 == k0 then (k0, c) else p) :: updateClump ps k0 c := rfl

theorem lookupClump_cons (p : Nat × Clump) (ps : List (Nat × Clump)) (k : Nat) :
    lookupClump (p :: ps) k = if p.1 == k then some p.2 else lookupClump ps k := by
  simp only [lookupClump, List.find?]
  cases p.1 == k
  · rw [if_neg (by simp)]
  · rw [if_pos rfl]
    rfl

theorem lookupClump_update_ne (cs : List (Nat × Clump)) (k0 k : Nat) (c : Clump)
    (h : k ≠ k0) : lookupClump (updateClump cs k0 c) k = lookupClump cs k := by
  induction cs with
  | nil => rfl
  | cons p ps ih =>
    have h1 : (k0 == k) = false := beq_eq_false_iff_ne.mpr (fun hh => h hh.symm)
    cases hp : p.1 == k0
    · have e : updateClump (p :: ps) k0 c = p :: updateClump ps k0 c := by
        rw [updateClump_cons, if_neg (by simp [hp])]
      rw [e, lookupClump_cons, lookupClump_cons, ih]
    · have hpk : p.1 = k0 := by rwa [beq_iff_eq] at hp
      have h2 : (p.1 == k) = false := by rw [hpk]; exact h1
      have e : updateClump (p :: ps) k0 c = (k0, c) :: updateClump ps k0 c := by
        rw [updateClump_cons, if_pos hp]
      rw [e, lookupClump_cons, lookupClump_cons,
        if_neg (by simp [h1]), if_neg (by simp [h2])]
      exact ih

theorem lookupClump_update_eq (cs : List (Nat × Clump)) (k0 : Nat) (c c0 : Clump)
    (h : lookupClump cs k0 = some c0) :
    lookupClump (updateClump cs k0 c) k0 = some c := by
  induction cs with
  | nil => simp [lookupClump] at h
  | cons p ps ih =>
    cases hp : p.1 == k0
    · have e : updateClump (p :: ps) k0 c = p :: updateClump ps k0 c := by
        rw [updateClump_cons, if_neg (by simp [hp])]
      have h' : lookupClump ps k0 = some c0 := by
        rw [lookupClump_cons, if_neg (by simp [hp])] at h
        exact h
      rw [e, lookupClump_cons, if_neg (by simp [hp])]
      exact ih h'
    · have e : updateClump (p :: ps) k0 c = (k0, c) :: updateClump ps k0 c := by
        rw [updateClump_cons, if_pos hp]
      rw [e, lookupClump_cons, if_pos (beq_self_eq_true k0)]

theorem dispatch_obj_basic (rg : Regs) (cl : Clump) (obj : SceneObj)
    (cl2 : Clump) (rg2 : Regs)
    (hq : rg.parent_queue = [])
    (h : dispatch_obj rg cl obj = some (cl2, rg2)) :
    rg2.parent_queue = [] ∧ ∃ t, cl2.frame_list = cl.frame_list ++ t := by
  cases hd : obj.data with
  | mesh geom =>
    simp only [dispatch_obj, hd] at h
    exact populate_atomic_basic rg cl obj geom cl2 rg2 hq h
  | empty =>
    simp only [dispatch_obj, hd] at h
    split at h
    · exact absurd h (by simp)
    next frame cl' rg' hcf =>
      obtain ⟨hq', hfl, _, _, _, _⟩ := create_frame_some_inv _ _ _ _ _ _ _ _ hcf
      rw [hq] at hq' hfl
      rw [backpatch_nil] at hfl
      injection h with h1
      rw [Prod.mk.injEq] at h1
      obtain ⟨hc, hr⟩ := h1
      subst hc
      subst hr
      refine ⟨hq', ⟨[frame], ?_⟩⟩
      simpa using hfl
  | armature bones =>
    simp only [dispatch_obj, hd, export_armature] at h
    obtain ⟨q2, ht, _, _⟩ :=
      export_armature_go_basic obj.parent bones bones rg cl 0 cl2 rg2 hq h
    exact ⟨q2, ht⟩

/-- C10: Throughout an export pass the parent queue stays empty — no
operation inserts into it, the back-patch loop in `create_frame` is a
no-op, and no frame already in a clump's frame list has any field (in
particular its parent index) modified by a later step: each step only
appends to the frame lists. -/
theorem parent_queue_empty_frames_append_only (clumps : List (Nat × Clump)) (rg : Regs)
    (obj : SceneObj) (clumps2 : List (Nat × Clump)) (rg2 : Regs)
    (hq : rg.parent_queue = [])
    (h : export_object_step (clumps, rg) obj = some (clumps2, rg2)) :
    rg2.parent_queue = [] ∧
    (∀ nm fi fl, backpatch rg.parent_queue nm fi fl = fl) ∧
    (∀ k cl, lookupClump clumps k = some cl →
      ∃ cl2 t, lookupClump clumps2 k = some cl2 ∧ cl2.frame_list = cl.frame_list ++ t) := by
  simp only [export_object_step] at h
  have key : rg2.parent_queue = [] ∧
      (∀ k cl, lookupClump clumps k = some cl →
        ∃ cl2 t, lookupClump clumps2 k = some cl2 ∧
          cl2.frame_list = cl.frame_list ++ t) := by
    split at h
    · exact absurd h (by simp)
    next cl0 hcl0 =>
      split at h
      · exact absurd h (by simp)
      next cl2' rg2' hdisp =>
        injection h with h1
        rw [Prod.mk.injEq] at h1
        obtain ⟨hc, hr⟩ := h1
        subst hc
        subst hr
        obtain ⟨hq2, t0, hext⟩ := dispatch_obj_basic rg cl0 obj _ _ hq hdisp
        refine ⟨hq2, ?_⟩
        intro k cl hk
        have hk' : lookupClump (if (lookupClump clumps obj.clump).isSome then clumps
            else clumps ++ [(obj.clump, Clump.empty)]) k = some cl := by
          split
          · exact hk
          · exact lookupClump_append_right_keep _ _ _ _ hk
        by_cases hkc : k = obj.clump
        · subst hkc
          have hcc := hk'.symm.trans hcl0
          injection hcc with hcc'
          refine ⟨cl2', t0, lookupClump_update_eq _ _ _ _ hcl0, ?_⟩
          rw [hext, hcc']
        · refine ⟨cl, [], ?_, by simp⟩
          rw [lookupClump_update_ne _ _ _ _ hkc]
          exact hk'
  exact ⟨key.1, fun nm fi fl => by rw [hq]; rfl, key.2⟩

/-- C10 witness: a concrete export step from the fresh state keeps the
parent queue empty, the back-patch loop is the identity, and the (empty)
clump map's frame lists are only extended. -/
theorem parent_queue_empty_frames_append_only_witness :
    Regs.empty.parent_queue = [] ∧
    ∃ clumps2 rg2,
      export_object_step (([] : List (Nat × Clump)), Regs.empty)
          ⟨"a", none, Mat4.id, Mat4.id, [], ⟨0, 0, 0⟩, none, 0, ObjData.empty⟩ =
        some (clumps2, rg2) ∧
      rg2.parent_queue = [] ∧
      (∀ nm fi fl, backpatch Regs.empty.parent_queue nm fi fl = fl) ∧
      (∀ k cl, lookupClump ([] : List (Nat × Clump)) k = some cl →
        ∃ cl2 t, lookupClump clumps2 k = some cl2 ∧ cl2.frame_list = cl.frame_list ++ t) := by
  have hs : (export_object_step (([] : List (Nat × Clump)), Regs.empty)
      ⟨"a", none, Mat4.id, Mat4.id, [], ⟨0, 0, 0⟩, none, 0, ObjData.empty⟩).isSome = true := by
    decide
  refine ⟨rfl, ?_⟩
  cases ho : export_object_step (([] : List (Nat × Clump)), Regs.empty)
      ⟨"a", none, Mat4.id, Mat4.id, [], ⟨0, 0, 0⟩, none, 0, ObjData.empty⟩ with
  | none =>
    rw [ho] at hs
    exact absurd hs (by simp)
  | some pr =>
    obtain ⟨clumps2, rg2⟩ := pr
    have h3 := parent_queue_empty_frames_append_only [] Regs.empty
      ⟨"a", none, Mat4.id, Mat4.id, [], ⟨0, 0, 0⟩, none, 0, ObjData.empty⟩ clumps2 rg2 rfl ho
    exact ⟨clumps2, rg2, rfl, h3.1, h3.2.1, h3.2.2⟩

/-- Positional parent check from the spec's words: counting from
absolute position `i`, every frame's parent index is −1 or strictly
below the frame's own position. -/
def parentsOkFromB (i : Nat) : List Frame → Bool
  | [] => true
  | fr :: rest =>
    (fr.parent == -1 || decide (fr.parent < Int.ofNat i)) && parentsOkFromB (i + 1) rest

/-- Spec property for a finished clump: every frame's parent index is
−1 or strictly less than the frame's own position in the frame list. -/
def frameParentsOkB (fl : List Frame) : Bool := parentsOkFromB 0 fl

theorem parentsOkFromB_iff (fl : List Frame) : ∀ (i : Nat),
    parentsOkFromB i fl = true ↔
      ∀ j fr, fl.get? j = some fr → fr.parent = -1 ∨ fr.parent < Int.ofNat (i + j) := by
  induction fl with
  | nil =>
    intro i
    simp [parentsOkFromB]
  | cons fr0 rest ih =>
    intro i
    rw [parentsOkFromB, Bool.and_eq_true, ih (i + 1)]
    constructor
    · rintro ⟨h0, hrest⟩ j fr hj
      cases j with
      | zero =>
        injection hj with hj'
        subst hj'
        simp only [Bool.or_eq_true, beq_iff_eq, decide_eq_true_eq] at h0
        rw [Nat.add_zero]
        exact h0
      | succ j =>
        have hr := hrest j fr (by simpa using hj)
        rw [show i + 1 + j = i + (j + 1) from by omega] at hr
        exact hr
    · intro hall
      refine ⟨?_, ?_⟩
      · have h0 := hall 0 fr0 rfl
        rw [Nat.add_zero] at h0
        simp only [Bool.or_eq_true, beq_iff_eq, decide_eq_true_eq]
        exact h0
      · intro j fr hj
        have hr := hall (j + 1) fr (by simpa using hj)
        rw [show i + (j + 1) = i + 1 + j from by omega] at hr
        exact hr

theorem frameParentsOkB_iff (fl : List Frame) :
    frameParentsOkB fl = true ↔
      ∀ j fr, fl.get? j = some fr → fr.parent = -1 ∨ fr.parent < Int.ofNat j := by
  rw [frameParentsOkB, parentsOkFromB_iff fl 0]
  simp [Nat.zero_add]

theorem parentsOkFromB_append (f : Frame) : ∀ (fl : List Frame) (i : Nat),
    parentsOkFromB i (fl ++ [f]) =
      (parentsOkFromB i fl &&
        (f.parent == -1 || decide (f.parent < Int.ofNat (i + fl.length)))) := by
  intro fl
  induction fl with
  | nil =>
    intro i
    simp [parentsOkFromB]
  | cons fr0 rest ih =>
    intro i
    simp only [List.cons_append, parentsOkFromB, List.append_eq, ih (i + 1), List.length_cons]
    rw [Bool.and_assoc]
    rw [show i + 1 + rest.length = i + (rest.length + 1) from by omega]

theorem frameParentsOkB_append (fl : List Frame) (f : Frame)
    (hok : frameParentsOkB fl = true)
    (hf : f.parent = -1 ∨ f.parent < Int.ofNat fl.length) :
    frameParentsOkB (fl ++ [f]) = true := by
  rw [frameParentsOkB] at hok ⊢
  rw [parentsOkFromB_append f fl 0, hok, Bool.true_and, Nat.zero_add]
  simp only [Bool.or_eq_true, beq_iff_eq, decide_eq_true_eq]
  exact hf

/-- Every registry entry points strictly below `n` — inside the single
clump's frame list when `n` is its length. -/
def regsBelow (rg : Regs) (n : Nat) : Prop :=
  (∀ e ∈ rg.frames, e.2 < n) ∧ (∀ e ∈ rg.bones, e.2 < n)

theorem lookupReg_mem (l : List (String × Nat)) (k : String) (v : Nat)
    (h : lookupReg l k = some v) : ∃ e ∈ l, e.2 = v := by
  simp only [lookupReg, Option.map_eq_some'] at h
  obtain ⟨e, hfind, he⟩ := h
  exact ⟨e, List.mem_of_find?_eq_some hfind, he⟩

theorem create_frame_strong (rg : Regs) (cl : Clump) (obj : Node) (append sp : Bool)
    (f : Frame) (cl2 : Clump) (rg2 : Regs)
    (hq : rg.parent_queue = [])
    (hreg : regsBelow rg cl.frame_list.length)
    (h : create_frame rg cl obj append sp = some (f, cl2, rg2)) :
    rg2.parent_queue = [] ∧
    cl2.frame_list = (if append then cl.frame_list ++ [f] else cl.frame_list) ∧
    (f.parent = -1 ∨ (0 ≤ f.parent ∧ f.parent < Int.ofNat cl.frame_list.length)) ∧
    regsBelow rg2 (cl.frame_list.length + 1) ∧
    ((obj.is_bone = true ∧ rg2.bones = (obj.name, cl.frame_list.length) :: rg.bones ∧
        rg2.frames = rg.frames) ∨
     (obj.is_bone = false ∧ rg2.frames = (obj.name, cl.frame_list.length) :: rg.frames ∧
        rg2.bones = rg.bones)) := by
  obtain ⟨hq', hfl, _, _, hpar, hregup⟩ := create_frame_some_inv _ _ _ _ _ _ _ _ h
  rw [hq] at hq' hfl
  rw [backpatch_nil] at hfl
  refine ⟨hq', hfl, ?_, ?_, hregup⟩
  · rcases hpar with hp | ⟨_, p, pname, _, hlk, hfp⟩
    · exact Or.inl hp
    · right
      obtain ⟨e, hmem, he⟩ := lookupReg_mem _ _ _ hlk
      have hplt : p < cl.frame_list.length := by
        by_cases hb : obj.is_bone = true
        · rw [if_pos hb] at hmem
          exact he ▸ hreg.2 e hmem
        · rw [if_neg hb] at hmem
          exact he ▸ hreg.1 e hmem
      constructor
      · rw [hfp]
        exact Int.ofNat_nonneg p
      · rw [hfp]
        exact Int.ofNat_lt.mpr hplt
  · rcases hregup with ⟨_, hbe, hfe⟩ | ⟨_, hfe, hbe⟩
    · refine ⟨?_, ?_⟩
      · rw [hfe]
        exact fun e he => Nat.lt_succ_of_lt (hreg.1 e he)
      · rw [hbe]
        intro e he
        rcases List.mem_cons.mp he with rfl | he'
        · exact Nat.lt_succ_self _
        · exact Nat.lt_succ_of_lt (hreg.2 e he')
    · refine ⟨?_, ?_⟩
      · rw [hfe]
        intro e he
        rcases List.mem_cons.mp he with rfl | he'
        · exact Nat.lt_succ_self _
        · exact Nat.lt_succ_of_lt (hreg.1 e he')
      · rw [hbe]
        exact fun e he => Nat.lt_succ_of_lt (hreg.2 e he)

theorem export_armature_go_strong (op : Option String) (allB : List BoneN) :
    ∀ (bones : List BoneN) (rg : Regs) (cl : Clump) (index : Nat) (cl2 : Clump) (rg2 : Regs),
      rg.parent_queue = [] →
      regsBelow rg cl.frame_list.length →
      frameParentsOkB cl.frame_list = true →
      export_armature_go op allB rg cl index bones = some (cl2, rg2) →
      rg2.parent_queue = [] ∧ regsBelow rg2 cl2.frame_list.length ∧
        frameParentsOkB cl2.frame_list = true := by
  intro bones
  induction bones with
  | nil =>
    intro rg cl index cl2 rg2 hq hreg hok h
    simp only [export_armature_go] at h
    injection h with h1
    rw [Prod.mk.injEq] at h1
    obtain ⟨hc, hr⟩ := h1
    subst hc
    subst hr
    exact ⟨hq, hreg, hok⟩
  | cons bone rest ih =>
    intro rg cl index cl2 rg2 hq hreg hok h
    simp only [export_armature_go] at h
    split at h
    · exact absurd h (by simp)
    next frame cl' rg' hcf =>
      obtain ⟨hq', hfl, hpar, hregs, hregup⟩ :=
        create_frame_strong _ _ _ _ _ _ _ _ hq hreg hcf
      have hfl' : cl'.frame_list = cl.frame_list := by simpa using hfl
      have hfr : rg'.frames = rg.frames := by
        rcases hregup with ⟨_, _, hfe⟩ | ⟨hb, _, _⟩
        · exact hfe
        · exact absurd hb (by simp [BoneN.toNode])
      split at h
      · -- first bone: objParent may override the parent
        split at h
        · exact absurd h (by simp)
        next par2 hpar2 =>
          have hp2 : par2.getD frame.parent = -1 ∨
              (0 ≤ par2.getD frame.parent ∧
                par2.getD frame.parent < Int.ofNat cl.frame_list.length) := by
            cases hop : op with
            | none =>
              rw [hop] at hpar2
              injection hpar2 with hpar2'
              rw [← hpar2']
              simpa using hpar
            | some pn =>
              rw [hop, Option.map_eq_some'] at hpar2
              obtain ⟨i, hlk, hpe⟩ := hpar2
              rw [← hpe]
              simp only [Option.getD_some]
              obtain ⟨e, hmem, he⟩ := lookupReg_mem _ _ _ hlk
              rw [hfr] at hmem
              have hilt : i < cl.frame_list.length := he ▸ hreg.1 e hmem
              exact Or.inr ⟨Int.ofNat_nonneg i, Int.ofNat_lt.mpr hilt⟩
          refine ih rg' _ (index + 1) cl2 rg2 hq' ?_ ?_ h
          · show regsBelow rg' (cl'.frame_list ++ [_]).length
            rw [List.length_append, hfl']
            simpa using hregs
          · show frameParentsOkB (cl'.frame_list ++ [_]) = true
            rw [hfl']
            refine frameParentsOkB_append _ _ hok ?_
            rcases hp2 with hh | ⟨_, hh⟩
            · exact Or.inl hh
            · exact Or.inr hh
      · -- subsequent bones: the parent is the one create_frame computed
        refine ih rg' _ (index + 1) cl2 rg2 hq' ?_ ?_ h
        · show regsBelow rg' (cl'.frame_list ++ [_]).length
          rw [List.length_append, hfl']
          simpa using hregs
        · show frameParentsOkB (cl'.frame_list ++ [_]) = true
          rw [hfl']
          refine frameParentsOkB_append _ _ hok ?_
          rcases hpar with hh | ⟨_, hh⟩
          · exact Or.inl hh
          · exact Or.inr hh

theorem dispatch_obj_strong (rg : Regs) (cl : Clump) (obj : SceneObj)
    (cl2 : Clump) (rg2 : Regs)
    (hq : rg.parent_queue = [])
    (hreg : regsBelow rg cl.frame_list.length)
    (hok : frameParentsOkB cl.frame_list = true)
    (h : dispatch_obj rg cl obj = some (cl2, rg2)) :
    rg2.parent_queue = [] ∧ regsBelow rg2 cl2.frame_list.length ∧
      frameParentsOkB cl2.frame_list = true := by
  cases hd : obj.data with
  | mesh geom =>
    simp only [dispatch_obj, hd, populate_atomic] at h
    split at h
    · exact absurd h (by simp)
    next frame cl' rg' hcf =>
      obtain ⟨hq', hfl, hpar, hregs, _⟩ := create_frame_strong _ _ _ _ _ _ _ _ hq hreg hcf
      have hfl' : cl'.frame_list = cl.frame_list ++ [frame] := by simpa using hfl
      injection h with h1
      rw [Prod.mk.injEq] at h1
      obtain ⟨hc, hr⟩ := h1
      have hrec := congrArg Clump.frame_list hc
      have hc3 : cl'.frame_list = cl2.frame_list := hrec
      refine ⟨hr ▸ hq', ?_, ?_⟩
      · rw [← hr, ← hc3, hfl']
        simpa using hregs
      · rw [← hc3, hfl']
        refine frameParentsOkB_append _ _ hok ?_
        rcases hpar with hh | ⟨_, hh⟩
        · exact Or.inl hh
        · exact Or.inr hh
  | empty =>
    simp only [dispatch_obj, hd] at h
    split at h
    · exact absurd h (by simp)
    next frame cl' rg' hcf =>
      obtain ⟨hq', hfl, hpar, hregs, _⟩ := create_frame_strong _ _ _ _ _ _ _ _ hq hreg hcf
      have hfl' : cl'.frame_list = cl.frame_list ++ [frame] := by simpa using hfl
      injection h with h1
      rw [Prod.mk.injEq] at h1
      obtain ⟨hc, hr⟩ := h1
      subst hc
      subst hr
      refine ⟨hq', ?_, ?_⟩
      · rw [hfl']
        simpa using hregs
      · rw [hfl']
        refine frameParentsOkB_append _ _ hok ?_
        rcases hpar with hh | ⟨_, hh⟩
        · exact Or.inl hh
        · exact Or.inr hh
  | armature bones =>
    simp only [dispatch_obj, hd, export_armature] at h
    exact export_armature_go_strong obj.parent bones bones rg cl 0 cl2 rg2 hq hreg hok h

/-- State invariant of the single-clump export: the queue is empty, and
the one clump (if created) has in-range registries and resolved
parents. -/
def singleInv (K : Nat) (clumps : List (Nat × Clump)) (rg : Regs) : Prop :=
  rg.parent_queue = [] ∧
  ((clumps = [] ∧ regsBelow rg 0) ∨
   (∃ cl, clumps = [(K, cl)] ∧ regsBelow rg cl.frame_list.length ∧
      frameParentsOkB cl.frame_list = true))

theorem export_object_step_single_inv (K : Nat) (clumps : List (Nat × Clump)) (rg : Regs)
    (obj : SceneObj) (clumps2 : List (Nat × Clump)) (rg2 : Regs)
    (hK : obj.clump = K)
    (hinv : singleInv K clumps rg)
    (h : export_object_step (clumps, rg) obj = some (clumps2, rg2)) :
    singleInv K clumps2 rg2 := by
  obtain ⟨hq, hdisj⟩ := hinv
  subst hK
  simp only [export_object_step] at h
  rcases hdisj with ⟨hnil, hreg0⟩ | ⟨cl, hcl, hreg, hok⟩
  · subst hnil
    have hL0 : lookupClump ([] : List (Nat × Clump)) obj.clump = none := rfl
    simp only [hL0, Option.isSome_none, Bool.false_eq_true, if_false, List.nil_append] at h
    have hL1 : lookupClump [(obj.clump, Clump.empty)] obj.clump = some Clump.empty := by
      rw [lookupClump_cons, if_pos (beq_self_eq_true obj.clump)]
    simp only [hL1] at h
    split at h
    · exact absurd h (by simp)
    next cl2' rg2' hdisp =>
      injection h with h1
      rw [Prod.mk.injEq] at h1
      obtain ⟨hc, hr⟩ := h1
      subst hc
      subst hr
      obtain ⟨q2, hregs2, hok2⟩ :=
        dispatch_obj_strong rg Clump.empty obj cl2' rg2' hq hreg0 rfl hdisp
      refine ⟨q2, Or.inr ⟨cl2', ?_, hregs2, hok2⟩⟩
      rw [updateClump_cons, if_pos (beq_self_eq_true obj.clump)]
      rfl
  · subst hcl
    have hL : lookupClump [(obj.clump, cl)] obj.clump = some cl := by
      rw [lookupClump_cons, if_pos (beq_self_eq_true obj.clump)]
    simp only [hL, Option.isSome_some, if_true] at h
    split at h
    · exact absurd h (by simp)
    next cl2' rg2' hdisp =>
      injection h with h1
      rw [Prod.mk.injEq] at h1
      obtain ⟨hc, hr⟩ := h1
      subst hc
      subst hr
      obtain ⟨q2, hregs2, hok2⟩ := dispatch_obj_strong rg cl obj cl2' rg2' hq hreg hok hdisp
      refine ⟨q2, Or.inr ⟨cl2', ?_, hregs2, hok2⟩⟩
      rw [updateClump_cons, if_pos (beq_self_eq_true obj.clump)]
      rfl

theorem export_objects_loop_inv (K : Nat) :
    ∀ (objs : List SceneObj) (st st2 : List (Nat × Clump) × Regs),
      (∀ o ∈ objs, o.clump = K) →
      singleInv K st.1 st.2 →
      objs.foldlM export_object_step st = some st2 →
      singleInv K st2.1 st2.2 := by
  intro objs
  induction objs with
  | nil =>
    intro st st2 _ hinv h
    have h' : (some st : Option (List (Nat × Clump) × Regs)) = some st2 := h
    injection h' with h1
    subst h1
    exact hinv
  | cons o rest ih =>
    intro st st2 hall hinv h
    rw [List.foldlM_cons] at h
    cases hstep : export_object_step st o with
    | none =>
      rw [hstep] at h
      exact absurd h (by simp)
    | some st' =>
      rw [hstep] at h
      have h2 : rest.foldlM export_object_step st' = some st2 := h
      have hinv' : singleInv K st'.1 st'.2 :=
        export_object_step_single_inv K st.1 st.2 o st'.1 st'.2
          (hall o (List.mem_cons_self o rest)) hinv hstep
      exact ih st' st2 (fun o' ho' => hall o' (List.mem_cons_of_mem _ ho')) hinv' h2

/-- C1 (amended): when every exported object is assigned the same
clump, every clump of a finished export satisfies the parent
invariant — each frame's parent index is −1 or strictly less than the
frame's own position in the clump's frame list. -/
theorem clump_frames_no_forward_parents_single_clump (objs : List SceneObj) (K : Nat)
    (st2 : List (Nat × Clump) × Regs)
    (hK : ∀ o ∈ objs, o.clump = K)
    (h : export_objects objs = some st2) :
    ∀ k cl, lookupClump st2.1 k = some cl →
      ∀ j fr, cl.frame_list.get? j = some fr →
        fr.parent = -1 ∨ fr.parent < Int.ofNat j := by
  have hinv : singleInv K st2.1 st2.2 :=
    export_objects_loop_inv K objs ([], Regs.empty) st2 hK
      ⟨rfl, Or.inl ⟨rfl, fun e he => absurd he (List.not_mem_nil e),
        fun e he => absurd he (List.not_mem_nil e)⟩⟩ h
  intro k cl hk
  rcases hinv.2 with ⟨hnil, _⟩ | ⟨cl', hcl', _, hok⟩
  · rw [hnil] at hk
    exact absurd hk (by simp [lookupClump])
  · rw [hcl', lookupClump_cons] at hk
    by_cases hkK : ((K, cl').1 == k) = true
    · rw [if_pos hkK] at hk
      injection hk with hk'
      subst hk'
      exact (frameParentsOkB_iff _).mp hok
    · rw [if_neg hkK] at hk
      exact absurd hk (by simp [lookupClump])

/-- C1 witness: a two-object scene in one clump — the second empty is
parented to the first; the finished clump's frames all satisfy the
parent bound. -/
theorem clump_frames_no_forward_parents_single_clump_witness :
    (∀ o ∈ [(⟨"A", none, Mat4.id, Mat4.id, [], ⟨0, 0, 0⟩, none, 0, ObjData.empty⟩ : SceneObj),
        ⟨"B", some "A", Mat4.id, Mat4.id, [], ⟨0, 0, 0⟩, none, 0, ObjData.empty⟩],
      o.clump = 0) ∧
    ∃ st2, export_objects
        [⟨"A", none, Mat4.id, Mat4.id, [], ⟨0, 0, 0⟩, none, 0, ObjData.empty⟩,
         ⟨"B", some "A", Mat4.id, Mat4.id, [], ⟨0, 0, 0⟩, none, 0, ObjData.empty⟩] =
        some st2 ∧
      ∀ k cl, lookupClump st2.1 k = some cl →
        ∀ j fr, cl.frame_list.get? j = some fr →
          fr.parent = -1 ∨ fr.parent < Int.ofNat j := by
  have hs : (export_objects
      [⟨"A", none, Mat4.id, Mat4.id, [], ⟨0, 0, 0⟩, none, 0, ObjData.empty⟩,
       ⟨"B", some "A", Mat4.id, Mat4.id, [], ⟨0, 0, 0⟩, none, 0, ObjData.empty⟩]).isSome
      = true := by decide
  refine ⟨by decide, ?_⟩
  cases ho : export_objects
      [⟨"A", none, Mat4.id, Mat4.id, [], ⟨0, 0, 0⟩, none, 0, ObjData.empty⟩,
       ⟨"B", some "A", Mat4.id, Mat4.id, [], ⟨0, 0, 0⟩, none, 0, ObjData.empty⟩] with
  | none =>
    rw [ho] at hs
    exact absurd hs (by simp)
  | some st2 =>
    exact ⟨st2, rfl,
      clump_frames_no_forward_parents_single_clump
        [⟨"A", none, Mat4.id, Mat4.id, [], ⟨0, 0, 0⟩, none, 0, ObjData.empty⟩,
         ⟨"B", some "A", Mat4.id, Mat4.id, [], ⟨0, 0, 0⟩, none, 0, ObjData.empty⟩]
        0 st2 (by decide) ho⟩

/-- C1 counterexample: two empties in different clumps — the second
object's frame sits at position 0 of clump 1's frame list but gets
parent index 0 through the shared frame registry (which recorded "A" at
index 0 of clump 0), so its parent is neither −1 nor below its own
position, and the parent check on clump 1 fails. -/
theorem clump_frame_forward_parent_across_clumps :
    ((export_objects
        [⟨"A", none, Mat4.id, Mat4.id, [], ⟨0, 0, 0⟩, none, 0, ObjData.empty⟩,
         ⟨"B", some "A", Mat4.id, Mat4.id, [], ⟨0, 0, 0⟩, none, 1, ObjData.empty⟩]).map
      fun st => (lookupClump st.1 1).map
        fun cl => (cl.frame_list.map Frame.parent, frameParentsOkB cl.frame_list)) =
      some (some ([0], false)) := by decide

end DragonFF
